import Mathlib

/-!
# falcon_arg_parser

A shallow embedding of `src/src/falcon_arg_parser.cc` (class `falcon_arg_parser`) and the
properties of its tokenizer (`separate_option_from_value`) and of its dispatch loop (`parse`).

Modelling conventions

* `std::string` is a Lean `String`, a finite sequence of characters; `s += c` is `String.push`,
  `a == b` is equality of the character sequences.
* `std::cout << ...` is modelled by the text that is appended to the standard output;
  `std::endl` contributes the newline character.
* `exit(n)` is modelled by the terminal outcome `Termination.exited n`, which ends the call.
* The two virtual hooks `derived_class_parse` and `get_derived_class_usage` are a parameter
  (`Extension`), a pair of functions over a state type chosen by the derived class.
* The scan of `separate_option_from_value` indexes the input with a `uint32_t` that wraps at
  `2^32` (`scan_index`). On an input of `2^32` characters or more the index never reaches the
  length: the call either returns `false` or never returns (its loop keeps running and
  appending to an output), and a call that never returns is the result `none`. On shorter
  inputs the loop is one pass over the characters (`scan_loop`, `scan_index_eq_scan_loop`).
* `parse(argc, pArgv)` receives an optional list of strings: `none` is `pArgv == nullptr`,
  and `argc` is the length of the list.
-/

namespace Falcon

/-! ## Data model -/

/-- The constant `DEFAULT_COMMAND_LINE_ARGUMENT_DELIMITER` (line 58). -/
def DEFAULT_COMMAND_LINE_ARGUMENT_DELIMITER : Char := '='

/-- The class `falcon_arg_parser`: its private data members (header, lines 96-97). -/
structure FalconArgParser where
  m_delimiter : Char
  m_program_name : String
deriving DecidableEq

/-- Constructor with a custom delimiter (lines 91-96). -/
def FalconArgParser.custom (option_val_delimiter : Char) : FalconArgParser :=
  { m_delimiter := option_val_delimiter, m_program_name := "" }

/-- Default constructor (lines 82-86): delegates with the default delimiter. -/
def FalconArgParser.default : FalconArgParser :=
  FalconArgParser.custom DEFAULT_COMMAND_LINE_ARGUMENT_DELIMITER

/-! ## The tokenizer `separate_option_from_value` (lines 213-250) -/

/-- The local variables and output parameters of `separate_option_from_value`. -/
structure ScanState where
  ret : Bool
  found_delimiter : Bool
  option : String
  value : String
deriving DecidableEq

/-- One execution of the loop body (lines 224-241) on the character `c = input[i]`. -/
def scan_step (m_delimiter : Char) (c : Char) (st : ScanState) : ScanState :=
  if c = m_delimiter ∧ st.found_delimiter = false then
    { st with found_delimiter := true }
  else if c = m_delimiter ∧ st.found_delimiter = true then
    { st with ret := false }
  else if st.found_delimiter = false then
    { st with option := st.option.push c }
  else
    { st with value := st.value.push c }

/-- The loop body applied in turn to a run of consecutive characters, until the run ends or
`ret` is false. This is what the loop of line 222 does as long as its index does not wrap;
the loop itself is `scan_index`. -/
def scan_loop (m_delimiter : Char) : List Char → ScanState → ScanState
  | [], st => st
  | c :: rest, st =>
    if st.ret = true then scan_loop m_delimiter rest (scan_step m_delimiter c st) else st

/-- The check after the loop (lines 244-247). -/
def scan_finish (st : ScanState) : ScanState :=
  if (st.found_delimiter = true ∧ st.value.length = 0) ∨
      (st.found_delimiter = false ∧ st.option.length = 0) then
    { st with ret := false }
  else st

/-- The loop `for (uint32_t i = 0; i < input.length() && ret; ++i)` of line 222. The index
`i` is a `uint32_t`, so `++i` wraps at `2^32`, while `input.length()` is not truncated.
`fuel` bounds the number of iterations that are run: the result is `none` when the loop is
still running after `fuel` iterations. -/
def scan_index (m_delimiter : Char) (input : List Char) : Nat → Nat → ScanState → Option ScanState
  | 0, i, st => if i < input.length ∧ st.ret = true then none else some st
  | fuel + 1, i, st =>
    if h : i < input.length ∧ st.ret = true then
      scan_index m_delimiter input fuel ((i + 1) % 4294967296)
        (scan_step m_delimiter (input.get ⟨i, h.1⟩) st)
    else some st

/-- The method `separate_option_from_value`. The result is `none` when the call never
returns, and otherwise the returned `bool` with the final contents of the output parameters
`option` and `value`. The loop is given `2 * input.length() + 1` iterations, which is enough
for it to finish whenever it finishes at all (`scan_index_none_forever`). -/
def separate_option_from_value (self : FalconArgParser) (input : String) :
    Option (Bool × String × String) :=
  match scan_index self.m_delimiter input.data (2 * input.length + 1) 0
      { ret := true, found_delimiter := false, option := "", value := "" } with
  | none => none
  | some st => some ((scan_finish st).ret, (scan_finish st).option, (scan_finish st).value)

/-- What `separate_option_from_value` computes when its index does not wrap: one pass over
the input followed by the final check. It is the result of the method on every input
shorter than `2^32` characters (`separate_short`). -/
def separate_scan (self : FalconArgParser) (input : String) : Bool × String × String :=
  let st := scan_finish
    (scan_loop self.m_delimiter input.data
      { ret := true, found_delimiter := false, option := "", value := "" })
  (st.ret, st.option, st.value)

/-! ## Usage text (lines 257-265) -/

/-- The text written by `std::endl`. -/
def endl : String := "\n"

/-- The method `print_usage(std::string &)`: the text it writes to the standard output. -/
def print_usage (self : FalconArgParser) (derived_class_usage_information : String) :
    String :=
  "Usage: " ++ self.m_program_name ++ " <options>" ++ endl
    ++ endl
    ++ "  -h,--help" ++ endl
    ++ "                       display usage information (this message)" ++ endl
    ++ endl
    ++ derived_class_usage_information

/-! ## The extension hooks and `parse` (lines 115-166) -/

/-- The two virtual hooks a derived class overrides, over the derived class's own state `σ`.
`derived_class_parse` reads the option and the value (inputs of the hook) and returns whether
it handled them together with the derived state it leaves; `get_derived_class_usage` returns
the usage text. The hooks neither write to the standard output nor end the process. -/
structure Extension (σ : Type) where
  derived_class_parse : σ → String → String → Bool × σ
  get_derived_class_usage : σ → String

/-- The hooks of the base class itself (lines 185-202): nothing is handled, no usage text. -/
def Extension.base : Extension Unit :=
  { derived_class_parse := fun _ _ _ => (false, ())
    get_derived_class_usage := fun _ => "" }

/-- How a call of `parse` ends: it returns to its caller, or it calls `exit(status)`, or it
never ends because a call of `separate_option_from_value` never returns. -/
inductive Termination where
  | returned : Termination
  | exited (status : Int) : Termination
  | never_returns : Termination
deriving DecidableEq

/-- Everything observable after a call of `parse`: the parser object, the state of the
derived class, the text written to the standard output, the calls of `derived_class_parse`
made so far (oldest first, each with the option and value it received), and how the call
ended. -/
structure ParseResult (σ : Type) where
  self : FalconArgParser
  ext : σ
  out : String
  calls : List (String × String)
  outcome : Termination

/-- The loop of `parse` (lines 128-165) over the arguments `pArgv[i]` that remain. `out` and
`calls` accumulate the output written and the hook calls made by the earlier iterations. -/
def parse_loop {σ : Type} (self : FalconArgParser) (E : Extension σ) :
    List String → σ → String → List (String × String) → ParseResult σ
  | [], s, out, calls =>
    { self := self, ext := s, out := out, calls := calls, outcome := Termination.returned }
  | arg :: rest, s, out, calls =>
    match separate_option_from_value self arg with
    | none =>
      { self := self, ext := s, out := out, calls := calls
        outcome := Termination.never_returns }
    | some r =>
      if r.1 = true then
        if r.2.1 = "h" ∨ r.2.1 = "--help" then
          { self := self, ext := s
            out := out ++ print_usage self (E.get_derived_class_usage s)
            calls := calls
            outcome := Termination.exited 0 }
        else
          let h := E.derived_class_parse s r.2.1 r.2.2
          if h.1 = false then
            { self := self, ext := h.2
              out := out ++ ("ERROR: Unsupported option: " ++ r.2.1 ++ endl)
                ++ print_usage self (E.get_derived_class_usage h.2)
              calls := calls ++ [(r.2.1, r.2.2)]
              outcome := Termination.exited (-1) }
          else
            parse_loop self E rest h.2 out (calls ++ [(r.2.1, r.2.2)])
      else
        { self := self, ext := s
          out := out ++ ("ERROR: Invalid argument string: " ++ arg ++ endl)
            ++ print_usage self (E.get_derived_class_usage s)
          calls := calls
          outcome := Termination.exited (-1) }

/-- The method `parse(argc, pArgv)`. The argument vector is `none` when `pArgv == nullptr`
and otherwise the list of its `argc` elements, so `some []` is `argc == 0`. -/
def parse {σ : Type} (self : FalconArgParser) (E : Extension σ) (s : σ)
    (pArgv : Option (List String)) : ParseResult σ :=
  match pArgv with
  | none | some [] =>
    { self := self, ext := s
      out := "ERROR: Unable to parse argc with 0 element and/or pArgv=nullptr" ++ endl
      calls := []
      outcome := Termination.returned }
  | some (name :: rest) =>
    parse_loop { self with m_program_name := name } E rest s "" []

/-! ## Vocabulary for statements about `parse` -/

/-- The `bool` that the tokenizer returns for one raw argument, `none` when the call never
returns. -/
def separate_returns (self : FalconArgParser) (x : String) : Option Bool :=
  match separate_option_from_value self x with
  | none => none
  | some r => some r.1

/-- The pair `(option, value)` that the tokenizer leaves for one raw argument when it
returns (a pair of empty strings stands for a call that never returns). -/
def tokenized (self : FalconArgParser) (x : String) : String × String :=
  match separate_option_from_value self x with
  | none => ("", "")
  | some r => (r.2.1, r.2.2)

/-- An option that `parse` takes as the request for help (line 136). -/
def is_help (option : String) : Prop := option = "h" ∨ option = "--help"

instance is_help_decidable (option : String) : Decidable (is_help option) := by
  unfold is_help
  exact inferInstance

/-- The arguments `xs`, met in this order while the derived class is in state `s`, are all
handled: for each one the tokenizer returns `true`, with an option that is not the help
option, and `derived_class_parse`, called on the derived state left by the previous one,
reports it handled. `s'` is the derived state after the last of them. -/
def handled_args {σ : Type} (self : FalconArgParser) (E : Extension σ) :
    σ → List String → σ → Prop
  | s, [], s' => s' = s
  | s, x :: xs, s' =>
    separate_returns self x = some true ∧
    ¬ is_help (tokenized self x).1 ∧
    (E.derived_class_parse s (tokenized self x).1 (tokenized self x).2).1 = true ∧
    handled_args self E
      (E.derived_class_parse s (tokenized self x).1 (tokenized self x).2).2 xs s'

/-- The exit status that a parent process observes for `exit(status)`: the low eight bits. -/
def observed_status (status : Int) : Int := status % 256

/-- A derived class used in the examples: it handles the option `foo` by recording the
value given for it, handles no other option, and contributes one line of usage text. -/
def sample_extension : Extension (Option String) :=
  { derived_class_parse := fun s option value =>
      if option = "foo" then (true, some value) else (false, s)
    get_derived_class_usage := fun _ => "  foo=<value>\n" }

/-- A derived class used in the examples: it reports every option handled, keeps no state
and contributes no usage text. -/
def accept_all_extension : Extension Unit :=
  { derived_class_parse := fun _ _ _ => (true, ())
    get_derived_class_usage := fun _ => "" }

/-- The method `print_usage(void)` (lines 171-175): it asks the derived class for its usage
text and passes it to `print_usage(std::string &)`. -/
def print_usage_void {σ : Type} (self : FalconArgParser) (E : Extension σ) (s : σ) : String :=
  print_usage self (E.get_derived_class_usage s)

/-- The operations of the class that can run on a constructed parser: `parse`,
`print_usage(void)` and `separate_option_from_value`. -/
inductive Operation where
  | parse (pArgv : Option (List String)) : Operation
  | print_usage : Operation
  | separate_option_from_value (input : String) : Operation

/-- The parser object and the derived state once an operation has run (for `parse`, also
when the call ends the process). Of the three methods only `parse` holds an assignment to a
data member (line 125); `print_usage` and `separate_option_from_value` read the members and
write to the standard output and to their output parameters only. -/
def after_operation {σ : Type} (E : Extension σ) (st : FalconArgParser × σ) :
    Operation → FalconArgParser × σ
  | Operation.parse pArgv => ((parse st.1 E st.2 pArgv).self, (parse st.1 E st.2 pArgv).ext)
  | Operation.print_usage => st
  | Operation.separate_option_from_value _ => st

/-! ## Properties of one pass over the characters -/

theorem scan_loop_stopped (d : Char) (cs : List Char) (st : ScanState) (h : st.ret = false) :
    scan_loop d cs st = st := by
  cases cs with
  | nil => rfl
  | cons c rest => simp [scan_loop, h]

theorem scan_loop_append (d : Char) (xs ys : List Char) (st : ScanState) :
    scan_loop d (xs ++ ys) st = scan_loop d ys (scan_loop d xs st) := by
  induction xs generalizing st with
  | nil => rfl
  | cons c rest ih =>
    by_cases h : st.ret = true
    · simp [scan_loop, h, ih]
    · have h0 : st.ret = false := by simpa using h
      simp [scan_loop, h0, scan_loop_stopped d ys st h0]

/-- For an input shorter than `2^32` characters the `uint32_t` index never wraps: from
index `i`, the loop finishes within `input.length - i` iterations and leaves the state
that one pass over the characters from position `i` on computes. -/
theorem scan_index_eq_scan_loop (d : Char) (input : List Char)
    (hlen : input.length < 4294967296) (fuel i : Nat) (st : ScanState)
    (hi : i ≤ input.length) (hfuel : input.length - i ≤ fuel) :
    scan_index d input fuel i st = some (scan_loop d (input.drop i) st) := by
  induction fuel generalizing i st with
  | zero =>
    have e : i = input.length := by omega
    subst e
    simp [scan_index, scan_loop]
  | succ fuel ih =>
    by_cases h : i < input.length ∧ st.ret = true
    · have hmod : (i + 1) % 4294967296 = i + 1 := Nat.mod_eq_of_lt (by omega)
      have hdrop : input.drop i = input.get ⟨i, h.1⟩ :: input.drop (i + 1) := by
        simp
      rw [scan_index, dif_pos h, hmod, ih (i + 1) _ (by omega) (by omega), hdrop]
      simp [scan_loop, h.2]
    · rw [scan_index, dif_neg h]
      by_cases hr : st.ret = true
      · have e : i = input.length := by
          have : ¬ i < input.length := fun hlt => h ⟨hlt, hr⟩
          omega
        subst e
        simp [scan_loop]
      · have h0 : st.ret = false := by simpa using hr
        rw [scan_loop_stopped d _ st h0]

/-- Before the delimiter is met, characters other than the delimiter go to `option`. -/
theorem scan_loop_option (d : Char) (cs : List Char) (o v : String) (h : d ∉ cs) :
    scan_loop d cs { ret := true, found_delimiter := false, option := o, value := v }
      = { ret := true, found_delimiter := false, option := ⟨o.data ++ cs⟩, value := v } := by
  induction cs generalizing o with
  | nil => simp [scan_loop]
  | cons c rest ih =>
    have hc : c ≠ d := fun e => h (by simp [e])
    have hr : d ∉ rest := fun e => h (by simp [e])
    simp [scan_loop, scan_step, hc, ih _ hr]

/-- After the delimiter has been met, characters other than the delimiter go to `value`. -/
theorem scan_loop_value (d : Char) (cs : List Char) (o v : String) (h : d ∉ cs) :
    scan_loop d cs { ret := true, found_delimiter := true, option := o, value := v }
      = { ret := true, found_delimiter := true, option := o, value := ⟨v.data ++ cs⟩ } := by
  induction cs generalizing v with
  | nil => simp [scan_loop]
  | cons c rest ih =>
    have hc : c ≠ d := fun e => h (by simp [e])
    have hr : d ∉ rest := fun e => h (by simp [e])
    simp [scan_loop, scan_step, hc, ih _ hr]

theorem string_length_ne_zero (s : String) (h : s ≠ "") : s.length ≠ 0 := by
  intro e
  apply h
  apply String.ext
  exact List.length_eq_zero.mp e

theorem string_nil_append (s : String) : (⟨"".data ++ s.data⟩ : String) = s := rfl

/-- The final check keeps a successful scan that met the delimiter and collected a value. -/
theorem scan_finish_value (o v : String) (hv : v.length ≠ 0) :
    scan_finish { ret := true, found_delimiter := true, option := o, value := v }
      = { ret := true, found_delimiter := true, option := o, value := v } := by
  unfold scan_finish
  rw [if_neg]
  intro hc
  rcases hc with ⟨_, h0⟩ | ⟨hf, _⟩
  · exact hv h0
  · exact Bool.noConfusion hf

/-- The final check keeps a successful scan without delimiter that collected an option. -/
theorem scan_finish_option (o v : String) (ho : o.length ≠ 0) :
    scan_finish { ret := true, found_delimiter := false, option := o, value := v }
      = { ret := true, found_delimiter := false, option := o, value := v } := by
  unfold scan_finish
  rw [if_neg]
  intro hc
  rcases hc with ⟨hf, _⟩ | ⟨_, h0⟩
  · exact Bool.noConfusion hf
  · exact ho h0

/-- One delimiter met while none had been met before only sets `found_delimiter`. -/
theorem scan_loop_delimiter (d : Char) (o v : String) :
    scan_loop d [d] { ret := true, found_delimiter := false, option := o, value := v }
      = { ret := true, found_delimiter := true, option := o, value := v } := by
  simp [scan_loop, scan_step]

/-- Once the delimiter has been met, one more delimiter makes the scan fail. -/
theorem scan_loop_second_delimiter (d : Char) (cs : List Char) (o v : String)
    (h : 1 ≤ cs.count d) :
    (scan_loop d cs { ret := true, found_delimiter := true, option := o, value := v }).ret
      = false := by
  induction cs generalizing v with
  | nil => simp at h
  | cons c rest ih =>
    by_cases hc : c = d
    · subst hc
      simp [scan_loop, scan_step, scan_loop_stopped]
    · have hr : 1 ≤ rest.count d := by
        simpa [List.count_cons, hc] using h
      simp [scan_loop, scan_step, hc, ih _ hr]

/-- Two delimiters in the characters still to be scanned make the scan fail. -/
theorem scan_loop_two_delimiters (d : Char) (cs : List Char) (o v : String)
    (h : 2 ≤ cs.count d) :
    (scan_loop d cs { ret := true, found_delimiter := false, option := o, value := v }).ret
      = false := by
  induction cs generalizing o with
  | nil => simp at h
  | cons c rest ih =>
    by_cases hc : c = d
    · subst hc
      have hr : 1 ≤ rest.count c := by
        rw [List.count_cons_self] at h
        omega
      simp [scan_loop, scan_step, scan_loop_second_delimiter c rest o v hr]
    · have hr : 2 ≤ rest.count d := by
        simpa [List.count_cons, hc] using h
      simp [scan_loop, scan_step, hc, ih _ hr]

/-- The final check never turns a failed scan into a success. -/
theorem scan_finish_failed (st : ScanState) (h : st.ret = false) :
    (scan_finish st).ret = false := by
  unfold scan_finish
  split
  · rfl
  · exact h

/-- A list that holds `d` splits at the first occurrence of `d`. -/
theorem split_at_first (d : Char) (l : List Char) (h : d ∈ l) :
    ∃ a b : List Char, l = a ++ d :: b ∧ d ∉ a := by
  induction l with
  | nil => simp at h
  | cons c rest ih =>
    by_cases hc : c = d
    · exact ⟨[], rest, by simp [hc], by simp⟩
    · have hr : d ∈ rest := by
        rcases List.mem_cons.mp h with e | e
        · exact absurd e.symm hc
        · exact e
      obtain ⟨a, b, e, ha⟩ := ih hr
      refine ⟨c :: a, b, by simp [e], ?_⟩
      intro hm
      rcases List.mem_cons.mp hm with e' | e'
      · exact hc e'.symm
      · exact ha e'

/-- The number of delimiters of a list split at its first delimiter. -/
theorem count_split (d : Char) (a b : List Char) (ha : d ∉ a) :
    (a ++ d :: b).count d = b.count d + 1 := by
  rw [List.count_append, List.count_eq_zero_of_not_mem ha, List.count_cons_self]
  omega

/-- The loop body never puts the delimiter into `option` or `value`. -/
theorem scan_step_outputs (d c : Char) (st : ScanState)
    (ho : d ∉ st.option.data) (hv : d ∉ st.value.data) :
    d ∉ (scan_step d c st).option.data ∧ d ∉ (scan_step d c st).value.data := by
  unfold scan_step
  by_cases hc : c = d
  · subst hc
    cases hf : st.found_delimiter <;> simp [hf, ho, hv]
  · have hc' : ¬ d = c := fun e => hc e.symm
    cases hf : st.found_delimiter <;> simp [hf, hc, hc', ho, hv]

theorem scan_loop_outputs (d : Char) (cs : List Char) (st : ScanState)
    (ho : d ∉ st.option.data) (hv : d ∉ st.value.data) :
    d ∉ (scan_loop d cs st).option.data ∧ d ∉ (scan_loop d cs st).value.data := by
  induction cs generalizing st with
  | nil => exact ⟨ho, hv⟩
  | cons c rest ih =>
    unfold scan_loop
    split
    · exact ih _ (scan_step_outputs d c st ho hv).1 (scan_step_outputs d c st ho hv).2
    · exact ⟨ho, hv⟩

theorem scan_finish_outputs (st : ScanState) :
    (scan_finish st).option = st.option ∧ (scan_finish st).value = st.value := by
  unfold scan_finish
  split <;> exact ⟨rfl, rfl⟩

/-- The last character of a list split at a delimiter is that delimiter exactly when
nothing follows it, provided no delimiter follows it. -/
theorem getLast_split (d : Char) (a b : List Char) (hb : d ∉ b) :
    (a ++ d :: b).getLast? ≠ some d ↔ b ≠ [] := by
  constructor
  · intro h e
    subst e
    apply h
    simp
  · intro hne h
    have hcons : d :: b = [d] ++ b := rfl
    rw [hcons, ← List.append_assoc, List.getLast?_append_of_ne_nil _ hne] at h
    exact hb (List.mem_of_getLast?_eq_some h)

/-! ## The result of one pass followed by the final check -/

/-- Without a delimiter the pass succeeds exactly when the input is not empty. -/
theorem separate_scan_no_delimiter (self : FalconArgParser) (s : String)
    (hd : self.m_delimiter ∉ s.data) :
    separate_scan self s = (decide (s ≠ ""), s, "") := by
  by_cases hs : s = ""
  · subst hs
    rfl
  · unfold separate_scan
    rw [scan_loop_option _ _ _ _ hd, string_nil_append,
      scan_finish_option _ _ (string_length_ne_zero s hs)]
    simp [hs]

/-- With one delimiter the pass splits the input around it and succeeds exactly when
characters follow the delimiter. -/
theorem separate_scan_split (self : FalconArgParser) (a b : List Char)
    (hda : self.m_delimiter ∉ a) (hdb : self.m_delimiter ∉ b) :
    separate_scan self ⟨a ++ self.m_delimiter :: b⟩
      = (decide (b ≠ []), ⟨a⟩, ⟨b⟩) := by
  have hdata : a ++ self.m_delimiter :: b = a ++ ([self.m_delimiter] ++ b) := rfl
  unfold separate_scan
  simp only []
  rw [hdata, scan_loop_append, scan_loop_option _ _ _ _ hda, scan_loop_append,
    scan_loop_delimiter, scan_loop_value _ _ _ _ hdb]
  cases b with
  | nil => rfl
  | cons c rest =>
    have hv : (⟨"".data ++ (c :: rest)⟩ : String).length ≠ 0 := by
      show ("".data ++ (c :: rest)).length ≠ 0
      simp
    rw [scan_finish_value _ _ hv]
    simp

/-- With two or more delimiters the pass fails. -/
theorem separate_scan_many (self : FalconArgParser) (s : String)
    (h : 2 ≤ s.data.count self.m_delimiter) :
    (separate_scan self s).1 = false := by
  unfold separate_scan
  exact scan_finish_failed _ (scan_loop_two_delimiters _ _ _ _ h)

/-- Whatever the input, the outputs of the pass hold no delimiter. -/
theorem separate_scan_outputs (self : FalconArgParser) (s : String) :
    self.m_delimiter ∉ (separate_scan self s).2.1.data ∧
    self.m_delimiter ∉ (separate_scan self s).2.2.data := by
  unfold separate_scan
  simp only []
  rw [(scan_finish_outputs _).1, (scan_finish_outputs _).2]
  exact scan_loop_outputs _ _ _ (by simp) (by simp)

/-! ## The loop with its wrapping index -/

/-- A loop that is entered with `ret` false ends at once. -/
theorem scan_index_stopped (d : Char) (input : List Char) (fuel i : Nat) (st : ScanState)
    (h : st.ret = false) : scan_index d input fuel i st = some st := by
  cases fuel <;> simp [scan_index, h]

/-- More iterations do not change the result of a loop that has finished. -/
theorem scan_index_mono (d : Char) (input : List Char) (f f' i : Nat) (st r : ScanState)
    (h : scan_index d input f i st = some r) (hle : f ≤ f') :
    scan_index d input f' i st = some r := by
  induction f generalizing f' i st with
  | zero =>
    by_cases hc : i < input.length ∧ st.ret = true
    · simp [scan_index, hc] at h
    · rw [scan_index, if_neg hc] at h
      cases f' with
      | zero => rw [scan_index, if_neg hc, h]
      | succ n => rw [scan_index, dif_neg hc, h]
  | succ f ih =>
    cases f' with
    | zero => omega
    | succ n =>
      by_cases hc : i < input.length ∧ st.ret = true
      · rw [scan_index, dif_pos hc] at h ⊢
        exact ih _ _ _ h (by omega)
      · rw [scan_index, dif_neg hc] at h ⊢
        exact h

/-- On an input of `2^32` characters or more the index stays below the length, so the loop
can only end with `ret` false. -/
theorem scan_index_wrap_fails (d : Char) (input : List Char)
    (hlen : 4294967296 ≤ input.length) (fuel i : Nat) (st r : ScanState)
    (hi : i < 4294967296) (h : scan_index d input fuel i st = some r) :
    r.ret = false := by
  induction fuel generalizing i st with
  | zero =>
    by_cases hr : st.ret = true
    · have hc : i < input.length ∧ st.ret = true := ⟨by omega, hr⟩
      simp [scan_index, hc] at h
    · have h0 : st.ret = false := by simpa using hr
      rw [scan_index_stopped _ _ _ _ _ h0] at h
      cases h
      exact h0
  | succ f ih =>
    by_cases hr : st.ret = true
    · have hc : i < input.length ∧ st.ret = true := ⟨by omega, hr⟩
      rw [scan_index, dif_pos hc] at h
      exact ih _ _ (Nat.mod_lt _ (by omega)) h
    · have h0 : st.ret = false := by simpa using hr
      rw [scan_index_stopped _ _ _ _ _ h0] at h
      cases h
      exact h0

/-- On an input of `2^32` characters or more without a delimiter among its first `2^32`
characters the loop never ends. -/
theorem scan_index_never (d : Char) (input : List Char)
    (hlen : 4294967296 ≤ input.length)
    (hno : ∀ (j : Nat) (hj : j < input.length), j < 4294967296 → input.get ⟨j, hj⟩ ≠ d)
    (fuel i : Nat) (o v : String) (hi : i < 4294967296) :
    scan_index d input fuel i
      { ret := true, found_delimiter := false, option := o, value := v } = none := by
  induction fuel generalizing i o with
  | zero =>
    have hc : i < input.length := by omega
    simp [scan_index, hc]
  | succ f ih =>
    have hc : i < input.length ∧
        ({ ret := true, found_delimiter := false, option := o, value := v } : ScanState).ret
          = true := ⟨by omega, rfl⟩
    rw [scan_index, dif_pos hc]
    have hne := hno i hc.1 hi
    have hstep : ∀ c : Char, c ≠ d → scan_step d c
        { ret := true, found_delimiter := false, option := o, value := v }
        = { ret := true, found_delimiter := false, option := o.push c, value := v } := by
      intro c hcd
      simp [scan_step, hcd]
    rw [hstep _ hne]
    exact ih _ _ (Nat.mod_lt _ (by omega))

/-- Once the delimiter has been met the loop body keeps `found_delimiter`. -/
theorem scan_loop_found (d : Char) (cs : List Char) (st : ScanState)
    (h : st.found_delimiter = true) : (scan_loop d cs st).found_delimiter = true := by
  induction cs generalizing st with
  | nil => exact h
  | cons c rest ih =>
    unfold scan_loop
    split
    · apply ih
      unfold scan_step
      by_cases hc : c = d <;> simp [hc, h]
    · exact h

/-- A pass that starts before the delimiter and meets it ends with `found_delimiter`. -/
theorem scan_loop_meets (d : Char) (cs : List Char) (o v : String) (h : d ∈ cs) :
    (scan_loop d cs
      { ret := true, found_delimiter := false, option := o, value := v }).found_delimiter
      = true := by
  obtain ⟨a, b, e, ha⟩ := split_at_first d cs h
  have e' : cs = a ++ ([d] ++ b) := e
  rw [e', scan_loop_append, scan_loop_option _ _ _ _ ha, scan_loop_append, scan_loop_delimiter]
  exact scan_loop_found _ _ _ rfl

/-- The characters below position `2^32`, from position `i` on. -/
theorem drop_take_cons (input : List Char) (i : Nat) (hi : i < 4294967296)
    (hlen : 4294967296 ≤ input.length) (hj : i < input.length) :
    (input.take 4294967296).drop i
      = input.get ⟨i, hj⟩ :: (input.take 4294967296).drop (i + 1) := by
  have hl : i < (input.take 4294967296).length := by
    rw [List.length_take]
    omega
  rw [List.drop_eq_getElem_cons hl]
  simp

/-- On an input of `2^32` characters or more, the iterations from index `i` up to index
`2^32 - 1` are one pass over the characters at these positions, after which the index is 0
again. -/
theorem scan_index_pass (d : Char) (input : List Char)
    (hlen : 4294967296 ≤ input.length) (m : Nat) :
    ∀ (i : Nat) (st : ScanState) (f : Nat), i + m + 1 = 4294967296 →
      scan_index d input (m + 1 + f) i st
        = scan_index d input f 0 (scan_loop d ((input.take 4294967296).drop i) st) := by
  induction m with
  | zero =>
    intro i st f hi
    have hj : i < input.length := by omega
    by_cases hr : st.ret = true
    · have hc : i < input.length ∧ st.ret = true := ⟨hj, hr⟩
      have hfuel : 0 + 1 + f = f + 1 := by omega
      have hmod : (i + 1) % 4294967296 = 0 := by omega
      have hnil : (input.take 4294967296).drop (i + 1) = [] := by
        apply List.drop_eq_nil_of_le
        rw [List.length_take]
        omega
      rw [hfuel, scan_index, dif_pos hc, hmod, drop_take_cons input i (by omega) hlen hj, hnil]
      simp [scan_loop, hr]
    · have h0 : st.ret = false := by simpa using hr
      rw [scan_index_stopped _ _ _ _ _ h0, scan_loop_stopped _ _ _ h0,
        scan_index_stopped _ _ _ _ _ h0]
  | succ m ih =>
    intro i st f hi
    have hj : i < input.length := by omega
    by_cases hr : st.ret = true
    · have hc : i < input.length ∧ st.ret = true := ⟨hj, hr⟩
      have hfuel : m + 1 + 1 + f = (m + 1 + f) + 1 := by omega
      have hmod : (i + 1) % 4294967296 = i + 1 := Nat.mod_eq_of_lt (by omega)
      rw [hfuel, scan_index, dif_pos hc, hmod, ih (i + 1) _ f (by omega),
        drop_take_cons input i (by omega) hlen hj]
      simp [scan_loop, hr]
    · have h0 : st.ret = false := by simpa using hr
      rw [scan_index_stopped _ _ _ _ _ h0, scan_loop_stopped _ _ _ h0,
        scan_index_stopped _ _ _ _ _ h0]

/-- On an input of `2^32` characters or more with a delimiter among its first `2^32`
characters the loop ends within two passes over these characters. -/
theorem scan_index_two_passes (d : Char) (input : List Char)
    (hlen : 4294967296 ≤ input.length) (hmem : d ∈ input.take 4294967296) :
    ∃ r : ScanState, scan_index d input (4294967295 + 1 + (4294967295 + 1 + 0)) 0
      { ret := true, found_delimiter := false, option := "", value := "" } = some r := by
  rw [scan_index_pass d input hlen 4294967295 0 _ _ (by omega), List.drop_zero]
  have hfound := scan_loop_meets d (input.take 4294967296) "" "" hmem
  by_cases hr : (scan_loop d (input.take 4294967296)
      { ret := true, found_delimiter := false, option := "", value := "" }).ret = true
  · rw [scan_index_pass d input hlen 4294967295 0 _ _ (by omega), List.drop_zero]
    have hst : scan_loop d (input.take 4294967296)
        { ret := true, found_delimiter := false, option := "", value := "" }
        = { ret := true, found_delimiter := true
            option := (scan_loop d (input.take 4294967296)
              { ret := true, found_delimiter := false, option := "", value := "" }).option
            value := (scan_loop d (input.take 4294967296)
              { ret := true, found_delimiter := false, option := "", value := "" }).value } := by
      cases hs : scan_loop d (input.take 4294967296)
        { ret := true, found_delimiter := false, option := "", value := "" } with
      | mk r fd o v =>
        rw [hs] at hr hfound
        simp only at hr hfound
        subst hr
        subst hfound
        rfl
    rw [hst]
    have hcount : 1 ≤ (input.take 4294967296).count d := List.count_pos_iff.mpr hmem
    exact ⟨_, scan_index_stopped _ _ _ _ _ (scan_loop_second_delimiter d _ _ _ hcount)⟩
  · have h0 : (scan_loop d (input.take 4294967296)
        { ret := true, found_delimiter := false, option := "", value := "" }).ret = false := by
      simpa using hr
    exact ⟨_, scan_index_stopped _ _ _ _ _ h0⟩

/-- The loop that is still running after `2 * input.length() + 1` iterations runs for ever:
the input has `2^32` characters or more and no delimiter among the first `2^32`. -/
theorem scan_index_none_forever (d : Char) (input : List Char)
    (h : scan_index d input (2 * input.length + 1) 0
      { ret := true, found_delimiter := false, option := "", value := "" } = none)
    (fuel : Nat) :
    scan_index d input fuel 0
      { ret := true, found_delimiter := false, option := "", value := "" } = none := by
  by_cases hlen : input.length < 4294967296
  · rw [scan_index_eq_scan_loop d input hlen _ 0 _ (Nat.zero_le _) (by omega)] at h
    exact Option.noConfusion h
  · have hlen' : 4294967296 ≤ input.length := by omega
    by_cases hmem : d ∈ input.take 4294967296
    · obtain ⟨r, hr⟩ := scan_index_two_passes d input hlen' hmem
      rw [scan_index_mono d input _ (2 * input.length + 1) 0 _ r hr (by omega)] at h
      exact Option.noConfusion h
    · apply scan_index_never d input hlen' _ fuel 0 "" "" (by omega)
      intro j hj hjw e
      apply hmem
      rw [← e]
      have hl : j < (input.take 4294967296).length := by
        rw [List.length_take]
        omega
      have hg : (input.take 4294967296).get ⟨j, hl⟩ = input.get ⟨j, hj⟩ := by
        simp
      rw [← hg]
      exact List.get_mem _ _ _

/-! ## The tokenizer -/

/-- When the result is `none` the loop of the method is still running after any number of
iterations: the call never returns. -/
theorem separate_none_never (self : FalconArgParser) (s : String)
    (h : separate_option_from_value self s = none) (fuel : Nat) :
    scan_index self.m_delimiter s.data fuel 0
      { ret := true, found_delimiter := false, option := "", value := "" } = none := by
  apply scan_index_none_forever
  unfold separate_option_from_value at h
  split at h
  · assumption
  · exact Option.noConfusion h

/-- When the result is `some r` the loop of the method finishes, and `r` is what the final
check leaves. -/
theorem separate_some_returns (self : FalconArgParser) (s : String) (r : Bool × String × String)
    (h : separate_option_from_value self s = some r) :
    ∃ (fuel : Nat) (st : ScanState),
      scan_index self.m_delimiter s.data fuel 0
        { ret := true, found_delimiter := false, option := "", value := "" } = some st ∧
      r = ((scan_finish st).ret, (scan_finish st).option, (scan_finish st).value) := by
  unfold separate_option_from_value at h
  split at h
  · exact Option.noConfusion h
  · rename_i st hst
    refine ⟨_, st, hst, ?_⟩
    cases h
    rfl

/-- On an input shorter than `2^32` characters the method returns, with the result of one
pass over the input followed by the final check. -/
theorem separate_short (self : FalconArgParser) (s : String)
    (hlen : s.length < 4294967296) :
    separate_option_from_value self s = some (separate_scan self s) := by
  have hlen' : s.data.length < 4294967296 := hlen
  have h := scan_index_eq_scan_loop self.m_delimiter s.data hlen' (2 * s.length + 1) 0
    { ret := true, found_delimiter := false, option := "", value := "" }
    (Nat.zero_le _) (by show s.data.length - 0 ≤ 2 * s.data.length + 1; omega)
  rw [List.drop_zero] at h
  unfold separate_option_from_value
  rw [h]
  rfl

/-- On an input of `2^32` characters or more the method never returns `true`. -/
theorem separate_long_fails (self : FalconArgParser) (s : String)
    (r : Bool × String × String) (hlen : 4294967296 ≤ s.length)
    (h : separate_option_from_value self s = some r) : r.1 = false := by
  obtain ⟨fuel, st, hst, hr⟩ := separate_some_returns self s r h
  have hret := scan_index_wrap_fails self.m_delimiter s.data hlen fuel 0 _ st (by omega) hst
  rw [hr]
  exact scan_finish_failed st hret

/-- On an input of `2^32` characters or more with a delimiter among its first `2^32`
characters the method returns `false`. -/
theorem separate_long_returns (self : FalconArgParser) (s : String)
    (hlen : 4294967296 ≤ s.length) (hmem : self.m_delimiter ∈ s.data.take 4294967296) :
    ∃ o v : String, separate_option_from_value self s = some (false, o, v) := by
  obtain ⟨st, hst⟩ := scan_index_two_passes self.m_delimiter s.data hlen hmem
  have hlen' : 4294967296 ≤ s.data.length := hlen
  have h := scan_index_mono self.m_delimiter s.data _ (2 * s.length + 1) 0 _ st hst
    (by show _ ≤ 2 * s.data.length + 1; omega)
  have hret := scan_index_wrap_fails self.m_delimiter s.data hlen _ 0 _ st (by omega) hst
  refine ⟨(scan_finish st).option, (scan_finish st).value, ?_⟩
  unfold separate_option_from_value
  rw [h]
  simp only []
  rw [scan_finish_failed st hret]

/-- On an input of `2^32` characters or more without a delimiter among its first `2^32`
characters the method never returns. -/
theorem separate_long_never (self : FalconArgParser) (s : String)
    (hlen : 4294967296 ≤ s.length)
    (hno : ∀ (j : Nat) (hj : j < s.data.length), j < 4294967296 →
      s.data.get ⟨j, hj⟩ ≠ self.m_delimiter) :
    separate_option_from_value self s = none ∧
    ∀ fuel : Nat, scan_index self.m_delimiter s.data fuel 0
      { ret := true, found_delimiter := false, option := "", value := "" } = none := by
  have hall : ∀ fuel : Nat, scan_index self.m_delimiter s.data fuel 0
      { ret := true, found_delimiter := false, option := "", value := "" } = none :=
    fun fuel => scan_index_never self.m_delimiter s.data hlen hno fuel 0 "" "" (by omega)
  refine ⟨?_, hall⟩
  unfold separate_option_from_value
  rw [hall]

/-- A call that returns `true` has run on an input shorter than `2^32` characters, as one
pass followed by the final check. -/
theorem separate_success (self : FalconArgParser) (s o v : String)
    (h : separate_option_from_value self s = some (true, o, v)) :
    s.length < 4294967296 ∧ separate_scan self s = (true, o, v) := by
  by_cases hlen : s.length < 4294967296
  · refine ⟨hlen, ?_⟩
    rw [separate_short self s hlen] at h
    exact Option.some.inj h
  · have hf := separate_long_fails self s _ (by omega) h
    exact Bool.noConfusion hf

/-- The loop never puts the delimiter into `option` or `value`. -/
theorem scan_index_outputs (d : Char) (input : List Char) (fuel i : Nat) (st r : ScanState)
    (ho : d ∉ st.option.data) (hv : d ∉ st.value.data)
    (h : scan_index d input fuel i st = some r) :
    d ∉ r.option.data ∧ d ∉ r.value.data := by
  induction fuel generalizing i st with
  | zero =>
    unfold scan_index at h
    split at h
    · exact Option.noConfusion h
    · cases h
      exact ⟨ho, hv⟩
  | succ f ih =>
    unfold scan_index at h
    split at h
    · exact ih _ _ (scan_step_outputs d _ st ho hv).1 (scan_step_outputs d _ st ho hv).2 h
    · cases h
      exact ⟨ho, hv⟩

/-- Whenever the method returns, its outputs hold no delimiter. -/
theorem separate_outputs (self : FalconArgParser) (s : String) (r : Bool × String × String)
    (h : separate_option_from_value self s = some r) :
    self.m_delimiter ∉ r.2.1.data ∧ self.m_delimiter ∉ r.2.2.data := by
  obtain ⟨fuel, st, hst, hr⟩ := separate_some_returns self s r h
  have hinv := scan_index_outputs self.m_delimiter s.data fuel 0 _ st (by simp) (by simp) hst
  rw [hr]
  simp only []
  rw [(scan_finish_outputs st).1, (scan_finish_outputs st).2]
  exact hinv

/-- Whenever the method returns on an input with two or more delimiters, it returns
`false`. -/
theorem separate_many (self : FalconArgParser) (s : String) (r : Bool × String × String)
    (h2 : 2 ≤ s.data.count self.m_delimiter)
    (h : separate_option_from_value self s = some r) : r.1 = false := by
  by_cases hlen : s.length < 4294967296
  · rw [separate_short self s hlen] at h
    cases h
    exact separate_scan_many self s h2
  · exact separate_long_fails self s r (by omega) h

/-- The method on an input shorter than `2^32` characters without a delimiter. -/
theorem separate_no_delimiter (self : FalconArgParser) (s : String)
    (hd : self.m_delimiter ∉ s.data) (hlen : s.length < 4294967296) :
    separate_option_from_value self s = some (decide (s ≠ ""), s, "") := by
  rw [separate_short self s hlen, separate_scan_no_delimiter self s hd]

/-- The method on an input shorter than `2^32` characters with one delimiter. -/
theorem separate_split (self : FalconArgParser) (a b : List Char)
    (hda : self.m_delimiter ∉ a) (hdb : self.m_delimiter ∉ b)
    (hlen : (a ++ self.m_delimiter :: b).length < 4294967296) :
    separate_option_from_value self ⟨a ++ self.m_delimiter :: b⟩
      = some (decide (b ≠ []), ⟨a⟩, ⟨b⟩) := by
  rw [separate_short self _ hlen, separate_scan_split self a b hda hdb]

/-- The characters of a run of one repeated character. -/
theorem get_replicate_append (n : Nat) (c : Char) (tail : List Char) (j : Nat)
    (hj : j < (List.replicate n c ++ tail).length) (hn : j < n) :
    (List.replicate n c ++ tail).get ⟨j, hj⟩ = c := by
  have hl : j < (List.replicate n c).length := by
    rw [List.length_replicate]
    exact hn
  rw [List.get_eq_getElem, List.getElem_append_left hl, List.getElem_replicate]

/-! ## Inputs of `2^32` characters or more -/

/-- The method never returns on an input that starts with `2^32` or more copies of one
character that is not the delimiter. -/
theorem separate_run_never (self : FalconArgParser) (c : Char) (hc : c ≠ self.m_delimiter)
    (n : Nat) (hn : 4294967296 ≤ n) (tail : List Char) :
    separate_option_from_value self ⟨List.replicate n c ++ tail⟩ = none ∧
    ∀ fuel : Nat, scan_index self.m_delimiter (List.replicate n c ++ tail) fuel 0
      { ret := true, found_delimiter := false, option := "", value := "" } = none := by
  apply separate_long_never self ⟨List.replicate n c ++ tail⟩
  · show 4294967296 ≤ (List.replicate n c ++ tail).length
    rw [List.length_append, List.length_replicate]
    omega
  · intro j hj hjw
    show (List.replicate n c ++ tail).get ⟨j, hj⟩ ≠ self.m_delimiter
    rw [get_replicate_append n c tail j hj (by omega)]
    exact hc

/-- A run of `2^32` copies of a character is not the empty string. -/
theorem run_ne_empty (c : Char) : (⟨List.replicate 4294967296 c⟩ : String) ≠ "" := by
  intro h
  have hl : (List.replicate 4294967296 c).length = 0 := congrArg String.length h
  rw [List.length_replicate] at hl
  omega

/-- A run of copies of `'x'` holds no `'='`. -/
theorem run_no_delimiter (n : Nat) : '=' ∉ List.replicate n 'x' := by
  intro h
  exact absurd (List.eq_of_mem_replicate h) (by decide)

/-- A call that never returns has no returned `bool`. -/
theorem separate_returns_none (self : FalconArgParser) (s : String)
    (h : separate_option_from_value self s = none) : separate_returns self s = none := by
  unfold separate_returns
  rw [h]

/-- C1, on the code: `a` is `2^32` copies of `'x'` and `b` is `"y"`, both non-empty and
without the delimiter `'='`; on `a + "=" + b` the index of the loop of line 222 wraps before
it reaches the delimiter and the call never returns. On the same shape with `2^32 - 2`
copies, an input of exactly `2^32` characters, the call returns `false`. -/
theorem separate_option_value_pair_wraps :
    ((⟨List.replicate 4294967296 'x'⟩ : String) ≠ "" ∧ ("y" : String) ≠ "" ∧
      '=' ∉ (⟨List.replicate 4294967296 'x'⟩ : String).data ∧ '=' ∉ ("y" : String).data) ∧
    separate_option_from_value FalconArgParser.default
      ((⟨List.replicate 4294967296 'x'⟩ : String) ++ String.singleton '=' ++ "y") = none ∧
    (∀ fuel : Nat, scan_index '='
      ((⟨List.replicate 4294967296 'x'⟩ : String) ++ String.singleton '=' ++ "y").data fuel 0
      { ret := true, found_delimiter := false, option := "", value := "" } = none) ∧
    ∃ o v : String, separate_option_from_value FalconArgParser.default
      ((⟨List.replicate 4294967294 'x'⟩ : String) ++ String.singleton '=' ++ "y")
        = some (false, o, v) := by
  have e : (⟨List.replicate 4294967296 'x'⟩ : String) ++ String.singleton '=' ++ "y"
      = ⟨List.replicate 4294967296 'x' ++ ['=', 'y']⟩ := by
    apply String.ext
    rw [String.data_append, String.data_append, List.append_assoc]
    rfl
  have e' : (⟨List.replicate 4294967294 'x'⟩ : String) ++ String.singleton '=' ++ "y"
      = ⟨List.replicate 4294967294 'x' ++ ['=', 'y']⟩ := by
    apply String.ext
    rw [String.data_append, String.data_append, List.append_assoc]
    rfl
  have hrun := separate_run_never FalconArgParser.default 'x' (by decide) 4294967296
    (Nat.le_refl _) ['=', 'y']
  refine ⟨⟨run_ne_empty 'x', by decide, run_no_delimiter _, by decide⟩, ?_, ?_, ?_⟩
  · rw [e]
    exact hrun.1
  · rw [e]
    exact hrun.2
  · rw [e']
    have hlen : (List.replicate 4294967294 'x' ++ ['=', 'y']).length = 4294967296 := by
      rw [List.length_append, List.length_replicate]
      rfl
    apply separate_long_returns
    · show 4294967296 ≤ (List.replicate 4294967294 'x' ++ ['=', 'y']).length
      rw [hlen]
    · show '=' ∈ (List.replicate 4294967294 'x' ++ ['=', 'y']).take 4294967296
      rw [List.take_of_length_le (Nat.le_of_eq hlen)]
      exact List.mem_append_right _ (by decide)

/-- C2, on the code: on the non-empty input of `2^32` copies of `'x'`, which holds no
delimiter `'='`, the index of the loop of line 222 wraps to 0 before it reaches the length
and the call never returns. -/
theorem separate_bare_flag_wraps :
    ((⟨List.replicate 4294967296 'x'⟩ : String) ≠ "" ∧
      '=' ∉ (⟨List.replicate 4294967296 'x'⟩ : String).data) ∧
    separate_option_from_value FalconArgParser.default ⟨List.replicate 4294967296 'x'⟩
      = none ∧
    ∀ fuel : Nat, scan_index '=' (List.replicate 4294967296 'x') fuel 0
      { ret := true, found_delimiter := false, option := "", value := "" } = none := by
  have hrun := separate_run_never FalconArgParser.default 'x' (by decide) 4294967296
    (Nat.le_refl _) []
  rw [List.append_nil] at hrun
  exact ⟨⟨run_ne_empty 'x', run_no_delimiter _⟩, hrun.1, hrun.2⟩

/-- C3, on the code: the input of `2^32` copies of `'x'` followed by `"=="` holds two
delimiters, but the loop of line 222 only visits the positions below `2^32`: the call never
returns, so it does not report failure. -/
theorem separate_two_delimiters_wraps :
    2 ≤ (⟨List.replicate 4294967296 'x' ++ ['=', '=']⟩ : String).data.count '=' ∧
    separate_option_from_value FalconArgParser.default
      ⟨List.replicate 4294967296 'x' ++ ['=', '=']⟩ = none ∧
    ∀ fuel : Nat, scan_index '=' (List.replicate 4294967296 'x' ++ ['=', '=']) fuel 0
      { ret := true, found_delimiter := false, option := "", value := "" } = none := by
  have hrun := separate_run_never FalconArgParser.default 'x' (by decide) 4294967296
    (Nat.le_refl _) ['=', '=']
  refine ⟨?_, hrun.1, hrun.2⟩
  show 2 ≤ (List.replicate 4294967296 'x' ++ ['=', '=']).count '='
  have h2 : List.count '=' ['=', '='] = 2 := by decide
  rw [List.count_append, h2]
  exact Nat.le_add_left 2 _

/-- C4, on the code: `a` is `2^32` copies of `'x'`, without the delimiter `'='`; on
`a + "="` the loop of line 222 never reaches the delimiter and the call never returns, so
it does not report failure. -/
theorem separate_trailing_delimiter_wraps :
    '=' ∉ (⟨List.replicate 4294967296 'x'⟩ : String).data ∧
    separate_option_from_value FalconArgParser.default
      ((⟨List.replicate 4294967296 'x'⟩ : String) ++ String.singleton '=') = none ∧
    ∀ fuel : Nat, scan_index '='
      ((⟨List.replicate 4294967296 'x'⟩ : String) ++ String.singleton '=').data fuel 0
      { ret := true, found_delimiter := false, option := "", value := "" } = none := by
  have e : (⟨List.replicate 4294967296 'x'⟩ : String) ++ String.singleton '='
      = ⟨List.replicate 4294967296 'x' ++ ['=']⟩ := by
    apply String.ext
    rw [String.data_append]
    rfl
  have hrun := separate_run_never FalconArgParser.default 'x' (by decide) 4294967296
    (Nat.le_refl _) ['=']
  refine ⟨run_no_delimiter _, ?_, ?_⟩
  · rw [e]
    exact hrun.1
  · rw [e]
    exact hrun.2

/-- C5, on the code: `b` is `2^32` copies of `'x'`, non-empty and without the delimiter
`'='`; on `"=" + b` the index of the loop of line 222 wraps to 0, meets the delimiter a
second time, and the call returns `false`, not `(true, "", b)`. -/
theorem separate_leading_delimiter_wraps :
    ((⟨List.replicate 4294967296 'x'⟩ : String) ≠ "" ∧
      '=' ∉ (⟨List.replicate 4294967296 'x'⟩ : String).data) ∧
    ∃ o v : String, separate_option_from_value FalconArgParser.default
      (String.singleton '=' ++ (⟨List.replicate 4294967296 'x'⟩ : String))
        = some (false, o, v) := by
  refine ⟨⟨run_ne_empty 'x', run_no_delimiter _⟩, ?_⟩
  have e : String.singleton '=' ++ (⟨List.replicate 4294967296 'x'⟩ : String)
      = ⟨['='] ++ List.replicate 4294967296 'x'⟩ := by
    apply String.ext
    rw [String.data_append]
    rfl
  rw [e]
  have hlen : 4294967296 ≤ (['='] ++ List.replicate 4294967296 'x').length := by
    rw [List.length_append, List.length_replicate]
    omega
  apply separate_long_returns
  · exact hlen
  · show '=' ∈ (['='] ++ List.replicate 4294967296 'x').take 4294967296
    have h0 : 0 < ((['='] ++ List.replicate 4294967296 'x').take 4294967296).length := by
      rw [List.length_take]
      omega
    have hg : ((['='] ++ List.replicate 4294967296 'x').take 4294967296)[0] = '=' := by
      rw [List.getElem_take]
      rfl
    rw [← hg]
    exact List.getElem_mem _

/-- C18, on the code: the input of `2^32` copies of `'x'` is non-empty and holds no
delimiter `'='`, so it satisfies the right-hand side of the characterisation, but the call
never returns and so does not report success. -/
theorem separate_succeeds_iff_wraps :
    (((⟨List.replicate 4294967296 'x'⟩ : String) ≠ "" ∧
        '=' ∉ (⟨List.replicate 4294967296 'x'⟩ : String).data) ∨
      ((⟨List.replicate 4294967296 'x'⟩ : String).data.count '=' = 1 ∧
        (⟨List.replicate 4294967296 'x'⟩ : String).data.getLast? ≠ some '=')) ∧
    separate_returns FalconArgParser.default ⟨List.replicate 4294967296 'x'⟩ ≠ some true ∧
    separate_option_from_value FalconArgParser.default ⟨List.replicate 4294967296 'x'⟩
      = none := by
  have hrun := separate_run_never FalconArgParser.default 'x' (by decide) 4294967296
    (Nat.le_refl _) []
  rw [List.append_nil] at hrun
  refine ⟨Or.inl ⟨run_ne_empty 'x', run_no_delimiter _⟩, ?_, hrun.1⟩
  rw [separate_returns_none _ _ hrun.1]
  exact fun h => Option.noConfusion h

/-! ## Properties of `parse` -/

/-- The tokenizer reads the delimiter only: the program name does not influence it. -/
theorem separate_program_name (self : FalconArgParser) (name x : String) :
    separate_option_from_value { self with m_program_name := name } x
      = separate_option_from_value self x := rfl

theorem separate_returns_program_name (self : FalconArgParser) (name x : String) :
    separate_returns { self with m_program_name := name } x = separate_returns self x := rfl

theorem tokenized_program_name (self : FalconArgParser) (name x : String) :
    tokenized { self with m_program_name := name } x = tokenized self x := rfl

/-- A call that returns the `bool` `b` returns it with the tokenized pair. -/
theorem separate_returns_some (self : FalconArgParser) (x : String) (b : Bool)
    (h : separate_returns self x = some b) :
    separate_option_from_value self x
      = some (b, (tokenized self x).1, (tokenized self x).2) := by
  unfold separate_returns at h
  unfold tokenized
  cases hs : separate_option_from_value self x with
  | none =>
    rw [hs] at h
    exact Option.noConfusion h
  | some r =>
    rw [hs] at h
    cases h
    rfl

/-- The returned `bool` and the tokenized pair of a call whose result is known. -/
theorem separate_returns_of (self : FalconArgParser) (x : String) (b : Bool) (o v : String)
    (h : separate_option_from_value self x = some (b, o, v)) :
    separate_returns self x = some b ∧ tokenized self x = (o, v) := by
  unfold separate_returns tokenized
  rw [h]
  exact ⟨rfl, rfl⟩

theorem handled_args_program_name {σ : Type} (self : FalconArgParser) (E : Extension σ)
    (name : String) (xs : List String) (s s' : σ) (h : handled_args self E s xs s') :
    handled_args { self with m_program_name := name } E s xs s' := by
  induction xs generalizing s with
  | nil => exact h
  | cons x rest ih =>
    obtain ⟨h1, h2, h3, h4⟩ := h
    exact ⟨h1, h2, h3, ih _ h4⟩

/-- A run of handled arguments makes the loop of `parse` call the hook once per argument,
in order, write nothing, and go on with the arguments that follow. -/
theorem parse_loop_handled {σ : Type} (self : FalconArgParser) (E : Extension σ)
    (pre post : List String) (s s' : σ) (out : String) (calls : List (String × String))
    (h : handled_args self E s pre s') :
    parse_loop self E (pre ++ post) s out calls
      = parse_loop self E post s' out (calls ++ pre.map (tokenized self)) := by
  induction pre generalizing s calls with
  | nil =>
    have e : s' = s := h
    subst e
    simp
  | cons x rest ih =>
    obtain ⟨h1, h2, h3, h4⟩ := h
    have hsep := separate_returns_some self x true h1
    have h2' : ¬ ((tokenized self x).1 = "h" ∨ (tokenized self x).1 = "--help") := h2
    have step : parse_loop self E (x :: (rest ++ post)) s out calls
        = parse_loop self E (rest ++ post)
            (E.derived_class_parse s (tokenized self x).1 (tokenized self x).2).2 out
            (calls ++ [tokenized self x]) := by
      rw [parse_loop, hsep]
      simp only [h2', h3, if_true, if_false, Bool.true_eq_false]
    rw [List.cons_append, step, ih _ _ h4]
    simp

/-- C6: on `["prog", "-h"]` with the default delimiter the tokenizer yields the option
`"-h"`, which line 136 does not take as the help option (it compares with `"h"`): for every
extension `derived_class_parse` is invoked with `("-h", "")` and the call never ends with
status 0; with the hooks of the base class it writes the unsupported-option diagnostic and
the usage text and ends with `exit(-1)`. -/
theorem parse_dash_h_not_help {σ : Type} (E : Extension σ) (s : σ) :
    (parse FalconArgParser.default E s (some ["prog", "-h"])).calls = [("-h", "")] ∧
    (parse FalconArgParser.default E s (some ["prog", "-h"])).outcome
      ≠ Termination.exited 0 ∧
    parse FalconArgParser.default Extension.base () (some ["prog", "-h"])
      = { self := { m_delimiter := '=', m_program_name := "prog" }
          ext := ()
          out := "ERROR: Unsupported option: -h\n" ++
            "Usage: prog <options>\n\n  -h,--help\n" ++
            "                       display usage information (this message)\n\n"
          calls := [("-h", "")]
          outcome := Termination.exited (-1) } := by
  have tok : separate_option_from_value
      { FalconArgParser.default with m_program_name := "prog" } "-h"
      = some (true, "-h", "") := by
    decide
  have nh : ¬ (("-h" : String) = "h" ∨ ("-h" : String) = "--help") := by decide
  refine ⟨?_, ?_, ?_⟩
  · cases hE : (E.derived_class_parse s "-h" "").1 <;>
      simp [parse, parse_loop, tok, nh, hE]
  · cases hE : (E.derived_class_parse s "-h" "").1 <;>
      simp [parse, parse_loop, tok, nh, hE]
  · rfl

/-- After a run of handled arguments `parse` is at the head of its loop with the program
name set, nothing written, and one recorded hook call per argument of the run. -/
theorem parse_handled_then {σ : Type} (self : FalconArgParser) (E : Extension σ)
    (s s' : σ) (prog : String) (pre post : List String)
    (h : handled_args self E s pre s') :
    parse self E s (some (prog :: (pre ++ post)))
      = parse_loop { self with m_program_name := prog } E post s' ""
          (pre.map (tokenized self)) := by
  have h' := handled_args_program_name self E prog pre s s' h
  have e : parse self E s (some (prog :: (pre ++ post)))
      = parse_loop { self with m_program_name := prog } E (pre ++ post) s "" [] := rfl
  rw [e, parse_loop_handled _ E pre post s s' "" [] h']
  rfl

/-- One iteration of the loop on an argument that asks for help (lines 136-142). -/
theorem parse_loop_help {σ : Type} (self : FalconArgParser) (E : Extension σ)
    (x : String) (rest : List String) (s : σ) (out : String) (calls : List (String × String))
    (hx : separate_returns self x = some true)
    (hh : is_help (tokenized self x).1) :
    parse_loop self E (x :: rest) s out calls
      = { self := self, ext := s
          out := out ++ print_usage self (E.get_derived_class_usage s)
          calls := calls
          outcome := Termination.exited 0 } := by
  have hh' : (tokenized self x).1 = "h" ∨ (tokenized self x).1 = "--help" := hh
  rw [parse_loop, separate_returns_some self x true hx]
  simp only [hh', if_true]

/-- One iteration of the loop on an argument for which the tokenizer returns `false`
(lines 156-164). -/
theorem parse_loop_invalid {σ : Type} (self : FalconArgParser) (E : Extension σ)
    (x : String) (rest : List String) (s : σ) (out : String) (calls : List (String × String))
    (hx : separate_returns self x = some false) :
    parse_loop self E (x :: rest) s out calls
      = { self := self, ext := s
          out := out ++ ("ERROR: Invalid argument string: " ++ x ++ endl)
            ++ print_usage self (E.get_derived_class_usage s)
          calls := calls
          outcome := Termination.exited (-1) } := by
  rw [parse_loop, separate_returns_some self x false hx]
  simp only [Bool.false_eq_true, if_false]

/-- One iteration of the loop on an argument that the hook does not handle (lines 145-153). -/
theorem parse_loop_unhandled {σ : Type} (self : FalconArgParser) (E : Extension σ)
    (x : String) (rest : List String) (s : σ) (out : String) (calls : List (String × String))
    (hx : separate_returns self x = some true)
    (hh : ¬ is_help (tokenized self x).1)
    (hE : (E.derived_class_parse s (tokenized self x).1 (tokenized self x).2).1 = false) :
    parse_loop self E (x :: rest) s out calls
      = { self := self
          ext := (E.derived_class_parse s (tokenized self x).1 (tokenized self x).2).2
          out := out ++ ("ERROR: Unsupported option: " ++ (tokenized self x).1 ++ endl)
            ++ print_usage self (E.get_derived_class_usage
                (E.derived_class_parse s (tokenized self x).1 (tokenized self x).2).2)
          calls := calls ++ [tokenized self x]
          outcome := Termination.exited (-1) } := by
  have hh' : ¬ ((tokenized self x).1 = "h" ∨ (tokenized self x).1 = "--help") := hh
  rw [parse_loop, separate_returns_some self x true hx]
  simp only [hh', hE, if_true, if_false]

/-- One iteration of the loop on an argument on which the tokenizer never returns. -/
theorem parse_loop_never {σ : Type} (self : FalconArgParser) (E : Extension σ)
    (x : String) (rest : List String) (s : σ) (out : String) (calls : List (String × String))
    (hx : separate_option_from_value self x = none) :
    parse_loop self E (x :: rest) s out calls
      = { self := self, ext := s, out := out, calls := calls
          outcome := Termination.never_returns } := by
  rw [parse_loop, hx]

/-- C7: if `x1..xk` are handled and for `x(k+1)` the tokenizer returns `true` with the
option `"h"` or `"--help"` (with any value), then `parse` writes exactly the usage text (no
diagnostic) and ends with `exit(0)`; the hook has been called exactly on `x1..xk`, in
order, and on none of the arguments from `x(k+1)` on. -/
theorem parse_help_short_circuits {σ : Type} (self : FalconArgParser) (E : Extension σ)
    (s s' : σ) (prog : String) (pre : List String) (x : String) (post : List String)
    (hpre : handled_args self E s pre s')
    (hx : separate_returns self x = some true)
    (hh : is_help (tokenized self x).1) :
    parse self E s (some (prog :: (pre ++ x :: post)))
      = { self := { self with m_program_name := prog }
          ext := s'
          out := print_usage { self with m_program_name := prog }
            (E.get_derived_class_usage s')
          calls := pre.map (tokenized self)
          outcome := Termination.exited 0 } := by
  rw [parse_handled_then self E s s' prog pre (x :: post) hpre,
    parse_loop_help { self with m_program_name := prog } E x post s' "" _ hx hh,
    String.empty_append]

theorem parse_help_short_circuits_witness :
    parse FalconArgParser.default sample_extension none
        (some ("prog" :: (["foo=bar"] ++ "--help=now" :: ["foo==1", "zzz"])))
      = { self := { FalconArgParser.default with m_program_name := "prog" }
          ext := some "bar"
          out := print_usage { FalconArgParser.default with m_program_name := "prog" }
            (sample_extension.get_derived_class_usage (some "bar"))
          calls := ["foo=bar"].map (tokenized FalconArgParser.default)
          outcome := Termination.exited 0 } :=
  parse_help_short_circuits FalconArgParser.default sample_extension none (some "bar")
    "prog" ["foo=bar"] "--help=now" ["foo==1", "zzz"]
    ⟨by decide, by decide, by decide, rfl⟩ (by decide) (by decide)

/-- C8: if for every argument after element 0 the tokenizer returns `true` with a non-help
option that the extension reports handled, `parse` returns normally having written nothing,
after one call of the hook per argument, in left-to-right order, each with the tokenized
pair of its argument. In particular `["prog"]` returns with no hook call, and `["prog", "foo=bar"]`
hands the extension the option `"foo"` with the value `"bar"`. -/
theorem parse_all_handled_returns {σ : Type} (self : FalconArgParser) (E : Extension σ)
    (s : σ) :
    (∀ (prog : String) (xs : List String) (s' : σ), handled_args self E s xs s' →
      parse self E s (some (prog :: xs))
        = { self := { self with m_program_name := prog }
            ext := s'
            out := ""
            calls := xs.map (tokenized self)
            outcome := Termination.returned } ∧
      (parse self E s (some (prog :: xs))).calls.length = xs.length) ∧
    parse self E s (some ["prog"])
      = { self := { self with m_program_name := "prog" }
          ext := s, out := "", calls := [], outcome := Termination.returned } ∧
    ((E.derived_class_parse s "foo" "bar").1 = true →
      parse FalconArgParser.default E s (some ["prog", "foo=bar"])
        = { self := { m_delimiter := '=', m_program_name := "prog" }
            ext := (E.derived_class_parse s "foo" "bar").2
            out := ""
            calls := [("foo", "bar")]
            outcome := Termination.returned }) := by
  have general : ∀ (p : FalconArgParser) (prog : String) (xs : List String) (s' : σ),
      handled_args p E s xs s' →
      parse p E s (some (prog :: xs))
        = { self := { p with m_program_name := prog }
            ext := s'
            out := ""
            calls := xs.map (tokenized p)
            outcome := Termination.returned } := by
    intro p prog xs s' h
    have e := parse_handled_then p E s s' prog xs [] h
    rw [List.append_nil] at e
    rw [e]
    rfl
  refine ⟨?_, rfl, ?_⟩
  · intro prog xs s' h
    refine ⟨general self prog xs s' h, ?_⟩
    rw [general self prog xs s' h]
    simp
  · intro hE
    have tok : separate_option_from_value FalconArgParser.default "foo=bar"
        = some (true, "foo", "bar") := by decide
    obtain ⟨hr, ht⟩ := separate_returns_of _ _ _ _ _ tok
    have hrun : handled_args FalconArgParser.default E s ["foo=bar"]
        (E.derived_class_parse s "foo" "bar").2 := by
      refine ⟨hr, ?_, ?_, ?_⟩
      · rw [ht]
        decide
      · rw [ht]
        exact hE
      · rw [ht]
        rfl
    rw [general FalconArgParser.default "prog" ["foo=bar"] _ hrun]
    simp only [List.map, ht]
    rfl

theorem parse_all_handled_returns_witness :
    parse FalconArgParser.default sample_extension none
        (some ("prog" :: ["foo=bar", "foo=baz"]))
      = { self := { FalconArgParser.default with m_program_name := "prog" }
          ext := some "baz"
          out := ""
          calls := ["foo=bar", "foo=baz"].map (tokenized FalconArgParser.default)
          outcome := Termination.returned } ∧
    (parse FalconArgParser.default sample_extension none
        (some ("prog" :: ["foo=bar", "foo=baz"]))).calls.length
      = ["foo=bar", "foo=baz"].length :=
  (parse_all_handled_returns FalconArgParser.default sample_extension none).1
    "prog" ["foo=bar", "foo=baz"] (some "baz")
    ⟨by decide, by decide, by decide, by decide, by decide, by decide, rfl⟩

/-- C9: if `x1..xk` are handled and `x(k+1)` is the first argument on which the tokenizer
returns `false`, `parse` writes the diagnostic line holding the raw string `x(k+1)`, then
the usage text (built-in part followed by the extension's usage text), and ends with
`exit(-1)`, a non-zero status; the hook has been called on `x1..xk` only. In particular
`["prog", "foo==bar"]` ends non-zero with the usage text written, for every extension. -/
theorem parse_invalid_argument_fatal {σ : Type} (self : FalconArgParser) (E : Extension σ)
    (s : σ) :
    (∀ (prog : String) (pre : List String) (x : String) (post : List String) (s' : σ),
      handled_args self E s pre s' →
      separate_returns self x = some false →
      parse self E s (some (prog :: (pre ++ x :: post)))
        = { self := { self with m_program_name := prog }
            ext := s'
            out := ("ERROR: Invalid argument string: " ++ x ++ endl)
              ++ print_usage { self with m_program_name := prog }
                  (E.get_derived_class_usage s')
            calls := pre.map (tokenized self)
            outcome := Termination.exited (-1) }) ∧
    parse FalconArgParser.default E s (some ["prog", "foo==bar"])
      = { self := { m_delimiter := '=', m_program_name := "prog" }
          ext := s
          out := "ERROR: Invalid argument string: foo==bar\n"
            ++ print_usage { m_delimiter := '=', m_program_name := "prog" }
                (E.get_derived_class_usage s)
          calls := []
          outcome := Termination.exited (-1) } ∧
    Termination.exited (-1) ≠ Termination.exited 0 ∧
    observed_status (-1) = 255 := by
  have general : ∀ (p : FalconArgParser) (prog : String) (pre : List String) (x : String)
      (post : List String) (s' : σ), handled_args p E s pre s' →
      separate_returns p x = some false →
      parse p E s (some (prog :: (pre ++ x :: post)))
        = { self := { p with m_program_name := prog }
            ext := s'
            out := ("ERROR: Invalid argument string: " ++ x ++ endl)
              ++ print_usage { p with m_program_name := prog }
                  (E.get_derived_class_usage s')
            calls := pre.map (tokenized p)
            outcome := Termination.exited (-1) } := by
    intro p prog pre x post s' hpre hx
    rw [parse_handled_then p E s s' prog pre (x :: post) hpre,
      parse_loop_invalid { p with m_program_name := prog } E x post s' "" _ hx,
      String.empty_append]
  refine ⟨general self, ?_, by decide, by decide⟩
  have h := general FalconArgParser.default "prog" [] "foo==bar" [] s rfl (by decide)
  exact h

theorem parse_invalid_argument_fatal_witness :
    parse FalconArgParser.default sample_extension none
        (some ("prog" :: (["foo=bar"] ++ "foo=" :: ["--help"])))
      = { self := { FalconArgParser.default with m_program_name := "prog" }
          ext := some "bar"
          out := ("ERROR: Invalid argument string: " ++ "foo=" ++ endl)
            ++ print_usage { FalconArgParser.default with m_program_name := "prog" }
                (sample_extension.get_derived_class_usage (some "bar"))
          calls := ["foo=bar"].map (tokenized FalconArgParser.default)
          outcome := Termination.exited (-1) } :=
  (parse_invalid_argument_fatal FalconArgParser.default sample_extension none).1
    "prog" ["foo=bar"] "foo=" ["--help"] (some "bar")
    ⟨by decide, by decide, by decide, rfl⟩ (by decide)

/-- C10: if `x1..xk` are handled and for `x(k+1)` the tokenizer returns `true` with a
non-help option `o` that the hook reports unhandled, `parse` writes the diagnostic line
naming `o`, then the usage text, and ends with `exit(-1)`, a non-zero status, without
processing any later argument. In particular `["prog", "unknown=1"]` with an extension that does not handle
`"unknown"` ends so, and with the hooks of the base class every non-help option is fatal. -/
theorem parse_unhandled_option_fatal {σ : Type} (self : FalconArgParser) (E : Extension σ)
    (s : σ) :
    (∀ (prog : String) (pre : List String) (x : String) (post : List String) (s' : σ),
      handled_args self E s pre s' →
      separate_returns self x = some true →
      ¬ is_help (tokenized self x).1 →
      (E.derived_class_parse s' (tokenized self x).1 (tokenized self x).2).1 = false →
      parse self E s (some (prog :: (pre ++ x :: post)))
        = { self := { self with m_program_name := prog }
            ext := (E.derived_class_parse s' (tokenized self x).1 (tokenized self x).2).2
            out := ("ERROR: Unsupported option: " ++ (tokenized self x).1 ++ endl)
              ++ print_usage { self with m_program_name := prog }
                  (E.get_derived_class_usage
                    (E.derived_class_parse s' (tokenized self x).1 (tokenized self x).2).2)
            calls := pre.map (tokenized self) ++ [tokenized self x]
            outcome := Termination.exited (-1) }) ∧
    ((E.derived_class_parse s "unknown" "1").1 = false →
      parse FalconArgParser.default E s (some ["prog", "unknown=1"])
        = { self := { m_delimiter := '=', m_program_name := "prog" }
            ext := (E.derived_class_parse s "unknown" "1").2
            out := "ERROR: Unsupported option: unknown\n"
              ++ print_usage { m_delimiter := '=', m_program_name := "prog" }
                  (E.get_derived_class_usage (E.derived_class_parse s "unknown" "1").2)
            calls := [("unknown", "1")]
            outcome := Termination.exited (-1) }) ∧
    (∀ (prog x : String) (post : List String),
      separate_returns self x = some true →
      ¬ is_help (tokenized self x).1 →
      parse self Extension.base () (some (prog :: x :: post))
        = { self := { self with m_program_name := prog }
            ext := ()
            out := ("ERROR: Unsupported option: " ++ (tokenized self x).1 ++ endl)
              ++ print_usage { self with m_program_name := prog } ""
            calls := [tokenized self x]
            outcome := Termination.exited (-1) }) ∧
    Termination.exited (-1) ≠ Termination.exited 0 ∧
    observed_status (-1) = 255 := by
  have general : ∀ (τ : Type) (F : Extension τ) (t : τ) (p : FalconArgParser)
      (prog : String) (pre : List String) (x : String) (post : List String) (t' : τ),
      handled_args p F t pre t' →
      separate_returns p x = some true →
      ¬ is_help (tokenized p x).1 →
      (F.derived_class_parse t' (tokenized p x).1 (tokenized p x).2).1 = false →
      parse p F t (some (prog :: (pre ++ x :: post)))
        = { self := { p with m_program_name := prog }
            ext := (F.derived_class_parse t' (tokenized p x).1 (tokenized p x).2).2
            out := ("ERROR: Unsupported option: " ++ (tokenized p x).1 ++ endl)
              ++ print_usage { p with m_program_name := prog }
                  (F.get_derived_class_usage
                    (F.derived_class_parse t' (tokenized p x).1 (tokenized p x).2).2)
            calls := pre.map (tokenized p) ++ [tokenized p x]
            outcome := Termination.exited (-1) } := by
    intro τ F t p prog pre x post t' hpre hx hh hE
    rw [parse_handled_then p F t t' prog pre (x :: post) hpre,
      parse_loop_unhandled { p with m_program_name := prog } F x post t' "" _ hx hh hE,
      String.empty_append]
    rfl
  refine ⟨general σ E s self, ?_, ?_, by decide, by decide⟩
  · intro hE
    have tok : separate_option_from_value FalconArgParser.default "unknown=1"
        = some (true, "unknown", "1") := by decide
    obtain ⟨hr, ht⟩ := separate_returns_of _ _ _ _ _ tok
    have h := general σ E s FalconArgParser.default "prog" [] "unknown=1" [] s rfl
      hr (by rw [ht]; decide) (by rw [ht]; exact hE)
    rw [ht] at h
    exact h
  · intro prog x post hx hh
    exact general Unit Extension.base () self prog [] x post () rfl hx hh rfl

theorem parse_unhandled_option_fatal_witness :
    parse FalconArgParser.default sample_extension none
        (some ("prog" :: (["foo=bar"] ++ "bar=1" :: ["--help"])))
      = { self := { FalconArgParser.default with m_program_name := "prog" }
          ext := (sample_extension.derived_class_parse (some "bar")
            (tokenized FalconArgParser.default "bar=1").1
            (tokenized FalconArgParser.default "bar=1").2).2
          out := ("ERROR: Unsupported option: "
              ++ (tokenized FalconArgParser.default "bar=1").1 ++ endl)
            ++ print_usage { FalconArgParser.default with m_program_name := "prog" }
                (sample_extension.get_derived_class_usage
                  (sample_extension.derived_class_parse (some "bar")
                    (tokenized FalconArgParser.default "bar=1").1
                    (tokenized FalconArgParser.default "bar=1").2).2)
          calls := ["foo=bar"].map (tokenized FalconArgParser.default)
            ++ [tokenized FalconArgParser.default "bar=1"]
          outcome := Termination.exited (-1) } :=
  (parse_unhandled_option_fatal FalconArgParser.default sample_extension none).1
    "prog" ["foo=bar"] "bar=1" ["--help"] (some "bar")
    ⟨by decide, by decide, by decide, rfl⟩ (by decide) (by decide) (by decide)

/-! ## The empty option, the empty argument vector, the usage text -/

/-- The tokenizer on `delimiter + v`, for a non-empty `v` without the delimiter, when the
argument is shorter than `2^32` characters. -/
theorem separate_leading (self : FalconArgParser) (v : String)
    (hv : v ≠ "") (hd : self.m_delimiter ∉ v.data)
    (hlen : (String.singleton self.m_delimiter ++ v).length < 4294967296) :
    separate_option_from_value self (String.singleton self.m_delimiter ++ v)
      = some (true, "", v) := by
  have e : String.singleton self.m_delimiter ++ v = ⟨[] ++ self.m_delimiter :: v.data⟩ := rfl
  have hne : v.data ≠ [] := fun h => hv (String.ext h)
  rw [e] at hlen ⊢
  rw [separate_split self [] v.data (by simp) hd hlen]
  simp [hne]

/-- C11, on the code: an accept-all extension is handed the empty option of `"=value"` and
reports it handled, so `parse` returns normally, having written nothing. -/
theorem parse_empty_option_accepted :
    parse FalconArgParser.default accept_all_extension () (some ["prog", "=value"])
      = { self := { m_delimiter := '=', m_program_name := "prog" }
          ext := ()
          out := ""
          calls := [("", "value")]
          outcome := Termination.returned } := rfl

/-- C11, amended: for every non-empty `v` without the delimiter, with `delimiter + v`
shorter than `2^32` characters, `parse` given `[prog, delimiter + v]` hands the empty
option with the value `v` to `derived_class_parse` like any other option. If the hook reports it unhandled, as the hook of the base class
always does, `parse` writes the diagnostic and the usage text and ends with `exit(-1)`; if
the hook reports it handled, `parse` returns normally. -/
theorem parse_empty_option_dispatched {σ : Type} (self : FalconArgParser) (E : Extension σ)
    (s : σ) (prog v : String) (hv : v ≠ "") (hd : self.m_delimiter ∉ v.data)
    (hlen : (String.singleton self.m_delimiter ++ v).length < 4294967296) :
    ((E.derived_class_parse s "" v).1 = false →
      parse self E s (some [prog, String.singleton self.m_delimiter ++ v])
        = { self := { self with m_program_name := prog }
            ext := (E.derived_class_parse s "" v).2
            out := ("ERROR: Unsupported option: " ++ "" ++ endl)
              ++ print_usage { self with m_program_name := prog }
                  (E.get_derived_class_usage (E.derived_class_parse s "" v).2)
            calls := [("", v)]
            outcome := Termination.exited (-1) }) ∧
    ((E.derived_class_parse s "" v).1 = true →
      parse self E s (some [prog, String.singleton self.m_delimiter ++ v])
        = { self := { self with m_program_name := prog }
            ext := (E.derived_class_parse s "" v).2
            out := ""
            calls := [("", v)]
            outcome := Termination.returned }) ∧
    parse self Extension.base () (some [prog, String.singleton self.m_delimiter ++ v])
      = { self := { self with m_program_name := prog }
          ext := ()
          out := ("ERROR: Unsupported option: " ++ "" ++ endl)
            ++ print_usage { self with m_program_name := prog } ""
          calls := [("", v)]
          outcome := Termination.exited (-1) } := by
  have tok := separate_leading self v hv hd hlen
  obtain ⟨hx, ht⟩ := separate_returns_of _ _ _ _ _ tok
  have hh : ¬ is_help (tokenized self (String.singleton self.m_delimiter ++ v)).1 := by
    rw [ht]
    show ¬ is_help ""
    decide
  have fatal : ∀ (τ : Type) (F : Extension τ) (t : τ), (F.derived_class_parse t "" v).1 = false →
      parse self F t (some [prog, String.singleton self.m_delimiter ++ v])
        = { self := { self with m_program_name := prog }
            ext := (F.derived_class_parse t "" v).2
            out := ("ERROR: Unsupported option: " ++ "" ++ endl)
              ++ print_usage { self with m_program_name := prog }
                  (F.get_derived_class_usage (F.derived_class_parse t "" v).2)
            calls := [("", v)]
            outcome := Termination.exited (-1) } := by
    intro τ F t hF
    have hF' : (F.derived_class_parse t
        (tokenized self (String.singleton self.m_delimiter ++ v)).1
        (tokenized self (String.singleton self.m_delimiter ++ v)).2).1 = false := by
      rw [ht]
      exact hF
    have h := parse_handled_then self F t t prog []
      [String.singleton self.m_delimiter ++ v] rfl
    rw [List.nil_append] at h
    rw [h, parse_loop_unhandled { self with m_program_name := prog } F _ [] t "" _ hx hh hF',
      tokenized_program_name, ht]
    rfl
  refine ⟨fatal σ E s, ?_, fatal Unit Extension.base () rfl⟩
  intro hE
  have hrun : handled_args self E s [String.singleton self.m_delimiter ++ v]
      (E.derived_class_parse s "" v).2 := by
    refine ⟨hx, hh, ?_, ?_⟩
    · rw [ht]
      exact hE
    · rw [ht]
      rfl
  have h := parse_handled_then self E s _ prog
    [String.singleton self.m_delimiter ++ v] [] hrun
  rw [List.append_nil] at h
  rw [h]
  simp only [List.map, ht]
  rfl

theorem parse_empty_option_dispatched_witness :
    parse FalconArgParser.default sample_extension none
        (some ["prog", String.singleton FalconArgParser.default.m_delimiter ++ "value"])
      = { self := { FalconArgParser.default with m_program_name := "prog" }
          ext := (sample_extension.derived_class_parse none "" "value").2
          out := ("ERROR: Unsupported option: " ++ "" ++ endl)
            ++ print_usage { FalconArgParser.default with m_program_name := "prog" }
                (sample_extension.get_derived_class_usage
                  (sample_extension.derived_class_parse none "" "value").2)
          calls := [("", "value")]
          outcome := Termination.exited (-1) } :=
  (parse_empty_option_dispatched FalconArgParser.default sample_extension none
    "prog" "value" (by decide) (by decide) (by decide)).1 (by decide)

/-- C12: `parse` given an absent argument vector or an empty one writes one error line and
returns normally: no hook call is recorded, the result does not depend on the extension
(neither hook is consulted), no usage text is written, and the parser object (program name
and delimiter) and the derived state are as before the call. -/
theorem parse_no_arguments {σ : Type} (self : FalconArgParser) (E : Extension σ) (s : σ) :
    parse self E s none
      = { self := self, ext := s
          out := "ERROR: Unable to parse argc with 0 element and/or pArgv=nullptr\n"
          calls := []
          outcome := Termination.returned } ∧
    parse self E s (some [])
      = { self := self, ext := s
          out := "ERROR: Unable to parse argc with 0 element and/or pArgv=nullptr\n"
          calls := []
          outcome := Termination.returned } ∧
    (∀ F : Extension σ, parse self F s none = parse self E s none ∧
      parse self F s (some []) = parse self E s (some [])) :=
  ⟨rfl, rfl, fun _ => ⟨rfl, rfl⟩⟩

/-- C13: for every program name `p` and every extension usage text `u`, `print_usage`
writes exactly the lines `Usage: p <options>`, an empty line, `  -h,--help`, the description
line and an empty line, each ended by a newline, followed by `u` with nothing appended: the
output begins with the usage line and the fixed help entry whatever `u` is, and ends with
`u`. The overload without argument writes the same with the text of the derived class. -/
theorem print_usage_text {σ : Type} (d : Char) (p u : String) (E : Extension σ) (s : σ) :
    print_usage { m_delimiter := d, m_program_name := p } u
      = "Usage: " ++ p ++ " <options>\n" ++ "\n" ++ "  -h,--help\n"
        ++ "                       display usage information (this message)\n" ++ "\n" ++ u ∧
    ("Usage: " ++ p ++ " <options>\n" ++ "\n" ++ "  -h,--help\n"
        ++ "                       display usage information (this message)\n" ++ "\n").data
      <+: (print_usage { m_delimiter := d, m_program_name := p } u).data ∧
    u.data <:+ (print_usage { m_delimiter := d, m_program_name := p } u).data ∧
    print_usage_void { m_delimiter := d, m_program_name := p } E s
      = "Usage: " ++ p ++ " <options>\n" ++ "\n" ++ "  -h,--help\n"
        ++ "                       display usage information (this message)\n" ++ "\n"
        ++ E.get_derived_class_usage s := by
  have h : print_usage { m_delimiter := d, m_program_name := p } u
      = "Usage: " ++ p ++ " <options>\n" ++ "\n" ++ "  -h,--help\n"
        ++ "                       display usage information (this message)\n" ++ "\n" ++ u := by
    apply String.ext
    simp [print_usage, endl]
  refine ⟨h, ?_, ?_, ?_⟩
  · rw [h, String.data_append]
    exact List.prefix_append _ _
  · rw [h, String.data_append]
    exact List.suffix_append _ _
  · apply String.ext
    simp [print_usage_void, print_usage, endl]

/-! ## The program name and the delimiter -/

/-- The loop of `parse` never writes to the parser object. -/
theorem parse_loop_self {σ : Type} (self : FalconArgParser) (E : Extension σ)
    (xs : List String) (s : σ) (out : String) (calls : List (String × String)) :
    (parse_loop self E xs s out calls).self = self := by
  induction xs generalizing s calls with
  | nil => rfl
  | cons x rest ih =>
    unfold parse_loop
    split
    · rfl
    · simp only []
      split
      · split
        · rfl
        · split
          · rfl
          · exact ih _ _
      · rfl

/-- Whenever the loop of `parse` ends the process, the last thing it has written is the
usage text, built from the parser object and the derived state that the result holds. -/
theorem parse_loop_exit_usage {σ : Type} (self : FalconArgParser) (E : Extension σ)
    (xs : List String) (s : σ) (out : String) (calls : List (String × String))
    (status : Int) (h : (parse_loop self E xs s out calls).outcome = Termination.exited status) :
    ∃ diag : String, (parse_loop self E xs s out calls).out
      = out ++ diag
        ++ print_usage self (E.get_derived_class_usage (parse_loop self E xs s out calls).ext) := by
  induction xs generalizing s calls with
  | nil => simp [parse_loop] at h
  | cons x rest ih =>
    unfold parse_loop at h ⊢
    cases hs : separate_option_from_value self x with
    | none =>
      rw [hs] at h
      simp at h
    | some r =>
      rw [hs] at h
      simp only [] at h ⊢
      split at h
      · rename_i h1
        simp only [h1, if_true]
        split at h
        · rename_i h2
          simp only [h2, if_true]
          exact ⟨"", by simp⟩
        · rename_i h2
          simp only [h2, if_false]
          split at h
          · rename_i h3
            simp only [h3, if_true]
            exact ⟨_, rfl⟩
          · rename_i h3
            simp only [h3, if_false]
            exact ih _ _ h
      · rename_i h1
        simp only [h1, if_false]
        exact ⟨_, rfl⟩

/-- What `parse` leaves in the parser object, for every argument vector. -/
theorem parse_self {σ : Type} (self : FalconArgParser) (E : Extension σ) (s : σ)
    (pArgv : Option (List String)) :
    (parse self E s pArgv).self
      = match pArgv with
        | some (name :: _) => { self with m_program_name := name }
        | _ => self := by
  match pArgv with
  | none => rfl
  | some [] => rfl
  | some (name :: rest) => exact parse_loop_self _ E rest s "" []

/-- C14: for every non-empty argument list `parse` stores element 0, as given, in the
program name before its loop starts, so before any hook is invoked; the parser object it
leaves has this name whatever the outcome, and on every path that ends the process the
usage text written last is the one built with element 0 as program name. -/
theorem parse_program_name_first {σ : Type} (self : FalconArgParser) (E : Extension σ)
    (s : σ) (prog : String) (xs : List String) :
    parse self E s (some (prog :: xs))
      = parse_loop { self with m_program_name := prog } E xs s "" [] ∧
    (parse self E s (some (prog :: xs))).self = { self with m_program_name := prog } ∧
    (∀ status : Int,
      (parse self E s (some (prog :: xs))).outcome = Termination.exited status →
      ∃ diag : String, (parse self E s (some (prog :: xs))).out
        = diag ++ print_usage { self with m_program_name := prog }
            (E.get_derived_class_usage (parse self E s (some (prog :: xs))).ext)) := by
  refine ⟨rfl, parse_loop_self _ E xs s "" [], ?_⟩
  intro status h
  obtain ⟨diag, hd⟩ :=
    parse_loop_exit_usage { self with m_program_name := prog } E xs s "" [] status h
  refine ⟨diag, ?_⟩
  rw [String.empty_append] at hd
  exact hd

theorem parse_program_name_first_witness :
    ∃ diag : String,
      (parse FalconArgParser.default sample_extension none
          (some ("./bin/../prog" :: ["foo=1", "foo=="]))).out
        = diag ++ print_usage { FalconArgParser.default with m_program_name := "./bin/../prog" }
            (sample_extension.get_derived_class_usage
              (parse FalconArgParser.default sample_extension none
                (some ("./bin/../prog" :: ["foo=1", "foo=="]))).ext) :=
  (parse_program_name_first FalconArgParser.default sample_extension none
    "./bin/../prog" ["foo=1", "foo=="]).2.2 (-1) (by decide)

/-- C15, on the code: with the empty string as element 0 `parse` returns normally and the
program name is empty although an argument was supplied; and on a parser whose program
name is `"prog"` (the state left by a call on `["prog"]`), a call without arguments returns
normally and the program name is not empty although no argument was supplied. -/
theorem parse_program_name_not_iff :
    (parse FalconArgParser.default Extension.base () (some [""])).outcome
      = Termination.returned ∧
    (parse FalconArgParser.default Extension.base () (some [""])).self.m_program_name = "" ∧
    (parse FalconArgParser.default Extension.base () (some ["prog"])).outcome
      = Termination.returned ∧
    (parse (parse FalconArgParser.default Extension.base () (some ["prog"])).self
      Extension.base () none).outcome = Termination.returned ∧
    (parse (parse FalconArgParser.default Extension.base () (some ["prog"])).self
      Extension.base () none).self.m_program_name = "prog" :=
  ⟨rfl, rfl, rfl, rfl, rfl⟩

/-- C15, amended: after every `parse` call that returns normally, the program name is
element 0 when at least one raw argument was supplied and is what it was before the call
otherwise; so, when the program name was empty before the call and element 0 is not the
empty string, it is non-empty exactly when an argument was supplied. -/
theorem parse_returned_program_name {σ : Type} (self : FalconArgParser) (E : Extension σ)
    (s : σ) (pArgv : Option (List String))
    (_ : (parse self E s pArgv).outcome = Termination.returned) :
    (∀ (p : String) (xs : List String), pArgv = some (p :: xs) →
      (parse self E s pArgv).self.m_program_name = p) ∧
    ((pArgv = none ∨ pArgv = some []) →
      (parse self E s pArgv).self.m_program_name = self.m_program_name) ∧
    (self.m_program_name = "" →
      (∀ (p : String) (xs : List String), pArgv = some (p :: xs) → p ≠ "") →
      ((parse self E s pArgv).self.m_program_name ≠ ""
        ↔ ∃ (p : String) (xs : List String), pArgv = some (p :: xs))) := by
  have hs := parse_self self E s pArgv
  refine ⟨?_, ?_, ?_⟩
  · intro p xs e
    subst e
    rw [hs]
  · intro e
    rcases e with e | e <;> subst e <;> rw [hs]
  · intro hempty hne
    match pArgv, hs, hne with
    | none, hs, _ =>
      rw [hs]
      simp [hempty]
    | some [], hs, _ =>
      rw [hs]
      simp [hempty]
    | some (p :: xs), hs, hne =>
      rw [hs]
      simp [hne p xs rfl]

theorem parse_returned_program_name_witness :
    (∀ (p : String) (xs : List String), some ["prog", "foo=bar"] = some (p :: xs) →
      (parse FalconArgParser.default sample_extension none
        (some ["prog", "foo=bar"])).self.m_program_name = p) ∧
    ((some ["prog", "foo=bar"] = none ∨ some ["prog", "foo=bar"] = some []) →
      (parse FalconArgParser.default sample_extension none
        (some ["prog", "foo=bar"])).self.m_program_name
        = FalconArgParser.default.m_program_name) ∧
    (FalconArgParser.default.m_program_name = "" →
      (∀ (p : String) (xs : List String), some ["prog", "foo=bar"] = some (p :: xs) → p ≠ "") →
      ((parse FalconArgParser.default sample_extension none
          (some ["prog", "foo=bar"])).self.m_program_name ≠ ""
        ↔ ∃ (p : String) (xs : List String), some ["prog", "foo=bar"] = some (p :: xs))) :=
  parse_returned_program_name FalconArgParser.default sample_extension none
    (some ["prog", "foo=bar"]) (by decide)

/-- C16, on the code: after a first call on `["first"]` has returned with the program name
`"first"`, a second call on the same parser with `["second"]` leaves the program name
`"second"`. -/
theorem parse_twice_renames :
    (parse FalconArgParser.default Extension.base () (some ["first"])).outcome
      = Termination.returned ∧
    (parse FalconArgParser.default Extension.base () (some ["first"])).self.m_program_name
      = "first" ∧
    (parse (parse FalconArgParser.default Extension.base () (some ["first"])).self
      Extension.base () (some ["second"])).self.m_program_name = "second" :=
  ⟨rfl, rfl, rfl⟩

/-- C16, amended: the program name is empty from construction until `parse` runs on a
non-empty argument list; every such call sets it to the element 0 of that call (so a later
call with another element 0 changes it), whatever it was before; `parse` on an absent or
empty argument list, `print_usage` and `separate_option_from_value` leave it as it is. -/
theorem program_name_follows_parse {σ : Type} (E : Extension σ) (d : Char) :
    (FalconArgParser.custom d).m_program_name = "" ∧
    FalconArgParser.default.m_program_name = "" ∧
    (∀ (self : FalconArgParser) (s : σ) (p : String) (xs : List String),
      (after_operation E (self, s) (Operation.parse (some (p :: xs)))).1.m_program_name = p) ∧
    (∀ (self : FalconArgParser) (s : σ),
      after_operation E (self, s) (Operation.parse none) = (self, s) ∧
      after_operation E (self, s) (Operation.parse (some [])) = (self, s)) ∧
    (∀ (st : FalconArgParser × σ) (input : String),
      after_operation E st Operation.print_usage = st ∧
      after_operation E st (Operation.separate_option_from_value input) = st) := by
  refine ⟨rfl, rfl, ?_, fun _ _ => ⟨rfl, rfl⟩, fun _ _ => ⟨rfl, rfl⟩⟩
  intro self s p xs
  show (parse self E s (some (p :: xs))).self.m_program_name = p
  rw [parse_self]

/-- C17: the delimiter chosen at construction is the delimiter after every sequence of
operations; `separate_option_from_value` and `print_usage` leave the parser object as it
is, for every input, and `parse` changes at most the program name. -/
theorem delimiter_never_changes {σ : Type} (E : Extension σ) (d : Char) (s : σ)
    (ops : List Operation) :
    (ops.foldl (after_operation E) (FalconArgParser.custom d, s)).1.m_delimiter = d ∧
    (∀ (st : FalconArgParser × σ) (input : String),
      after_operation E st (Operation.separate_option_from_value input) = st ∧
      after_operation E st Operation.print_usage = st) ∧
    (∀ (self : FalconArgParser) (t : σ) (pArgv : Option (List String)),
      (parse self E t pArgv).self
        = { self with m_program_name := (parse self E t pArgv).self.m_program_name }) := by
  have hparse : ∀ (self : FalconArgParser) (t : σ) (pArgv : Option (List String)),
      (parse self E t pArgv).self.m_delimiter = self.m_delimiter := by
    intro self t pArgv
    rw [parse_self]
    match pArgv with
    | none => rfl
    | some [] => rfl
    | some (_ :: _) => rfl
  have hop : ∀ (st : FalconArgParser × σ) (op : Operation),
      (after_operation E st op).1.m_delimiter = st.1.m_delimiter := by
    intro st op
    cases op with
    | parse pArgv => exact hparse st.1 st.2 pArgv
    | print_usage => rfl
    | separate_option_from_value input => rfl
  have hfold : ∀ (l : List Operation) (st : FalconArgParser × σ),
      (l.foldl (after_operation E) st).1.m_delimiter = st.1.m_delimiter := by
    intro l
    induction l with
    | nil => intro st; rfl
    | cons op rest ih =>
      intro st
      rw [List.foldl_cons, ih, hop]
  refine ⟨hfold ops _, fun _ _ => ⟨rfl, rfl⟩, ?_⟩
  intro self t pArgv
  have h := hparse self t pArgv
  cases hr : (parse self E t pArgv).self with
  | mk dd nn =>
    rw [hr] at h
    simp only at h
    subst h
    rfl

/-! ## Characterisation of the tokenizer -/

/-- One pass followed by the final check succeeds if and only if either the input is
non-empty and holds no delimiter, or it holds exactly one delimiter and that delimiter is
not its last character. -/
theorem separate_scan_succeeds_iff (self : FalconArgParser) (s : String) :
    (separate_scan self s).1 = true ↔
      (s ≠ "" ∧ self.m_delimiter ∉ s.data) ∨
      (s.data.count self.m_delimiter = 1 ∧ s.data.getLast? ≠ some self.m_delimiter) := by
  by_cases hmem : self.m_delimiter ∈ s.data
  · obtain ⟨a, b, e, ha⟩ := split_at_first _ _ hmem
    have es : s = ⟨a ++ self.m_delimiter :: b⟩ := String.ext e
    have hcount := count_split self.m_delimiter a b ha
    by_cases hb : self.m_delimiter ∈ b
    · have hpos : 0 < b.count self.m_delimiter := List.count_pos_iff.mpr hb
      have h2 : 2 ≤ s.data.count self.m_delimiter := by
        rw [e, hcount]
        omega
      rw [separate_scan_many self s h2]
      constructor
      · intro h
        exact Bool.noConfusion h
      · intro h
        rcases h with ⟨_, h⟩ | ⟨h, _⟩
        · exact absurd hmem h
        · omega
    · have h0 : b.count self.m_delimiter = 0 := List.count_eq_zero_of_not_mem hb
      have hlast := getLast_split self.m_delimiter a b hb
      rw [es, separate_scan_split self a b ha hb]
      show decide (b ≠ []) = true ↔ _
      rw [decide_eq_true_iff]
      constructor
      · intro hne
        refine Or.inr ⟨?_, hlast.mpr hne⟩
        show (a ++ self.m_delimiter :: b).count self.m_delimiter = 1
        rw [hcount, h0]
      · intro h
        rcases h with ⟨_, h⟩ | ⟨_, h⟩
        · exact absurd (by rw [← e]; exact hmem) h
        · exact hlast.mp h
  · rw [separate_scan_no_delimiter self s hmem]
    show decide (s ≠ "") = true ↔ _
    rw [decide_eq_true_iff]
    constructor
    · intro hne
      exact Or.inl ⟨hne, hmem⟩
    · intro h
      rcases h with ⟨h, _⟩ | ⟨h, _⟩
      · exact h
      · rw [List.count_eq_zero_of_not_mem hmem] at h
        omega

/-- The tokenizer returns `true` only on an input that is non-empty and holds no delimiter,
or holds exactly one delimiter that is not its last character; on an input shorter than
`2^32` characters it returns `true` on every such input. -/
theorem separate_succeeds_iff_short (self : FalconArgParser) (s : String) :
    (separate_returns self s = some true →
      (s ≠ "" ∧ self.m_delimiter ∉ s.data) ∨
      (s.data.count self.m_delimiter = 1 ∧ s.data.getLast? ≠ some self.m_delimiter)) ∧
    (s.length < 4294967296 →
      ((s ≠ "" ∧ self.m_delimiter ∉ s.data) ∨
        (s.data.count self.m_delimiter = 1 ∧ s.data.getLast? ≠ some self.m_delimiter)) →
      separate_returns self s = some true) := by
  constructor
  · intro h
    have hs := (separate_success self s _ _ (separate_returns_some self s true h)).2
    apply (separate_scan_succeeds_iff self s).mp
    rw [hs]
  · intro hlen hrhs
    have hok := (separate_scan_succeeds_iff self s).mpr hrhs
    unfold separate_returns
    rw [separate_short self s hlen]
    simp only []
    rw [hok]

/-- One pass followed by the final check: on success the outputs rejoin to the input, and
the outputs never hold the delimiter. -/
theorem separate_scan_round_trip (self : FalconArgParser) (s : String) :
    ((separate_scan self s).1 = true →
      (self.m_delimiter ∈ s.data →
        s = (separate_scan self s).2.1 ++ String.singleton self.m_delimiter
          ++ (separate_scan self s).2.2) ∧
      (self.m_delimiter ∉ s.data →
        s = (separate_scan self s).2.1 ∧
        (separate_scan self s).2.2 = "")) ∧
    self.m_delimiter ∉ (separate_scan self s).2.1.data ∧
    self.m_delimiter ∉ (separate_scan self s).2.2.data := by
  refine ⟨?_, separate_scan_outputs self s⟩
  intro hok
  by_cases hmem : self.m_delimiter ∈ s.data
  · refine ⟨fun _ => ?_, fun h => absurd hmem h⟩
    obtain ⟨a, b, e, ha⟩ := split_at_first _ _ hmem
    have es : s = ⟨a ++ self.m_delimiter :: b⟩ := String.ext e
    by_cases hb : self.m_delimiter ∈ b
    · have hpos : 0 < b.count self.m_delimiter := List.count_pos_iff.mpr hb
      have h2 : 2 ≤ s.data.count self.m_delimiter := by
        rw [e, count_split self.m_delimiter a b ha]
        omega
      rw [separate_scan_many self s h2] at hok
      exact Bool.noConfusion hok
    · have hsplit := separate_scan_split self a b ha hb
      rw [← es] at hsplit
      rw [hsplit]
      apply String.ext
      rw [e]
      simp [String.singleton]
  · refine ⟨fun h => absurd h hmem, fun _ => ?_⟩
    rw [separate_scan_no_delimiter self s hmem]
    exact ⟨rfl, rfl⟩

/-- C19: on every input on which the tokenizer returns `true`, the input is
`option + delimiter + value` when it holds the delimiter, and is `option`, with an empty
`value`, otherwise; and on every input, accepted or not, neither `option` nor `value`
holds the delimiter. -/
theorem separate_round_trip (self : FalconArgParser) (s : String) :
    (separate_returns self s = some true →
      (self.m_delimiter ∈ s.data →
        s = (tokenized self s).1 ++ String.singleton self.m_delimiter
          ++ (tokenized self s).2) ∧
      (self.m_delimiter ∉ s.data →
        s = (tokenized self s).1 ∧
        (tokenized self s).2 = "")) ∧
    self.m_delimiter ∉ (tokenized self s).1.data ∧
    self.m_delimiter ∉ (tokenized self s).2.data := by
  constructor
  · intro hok
    have hs := (separate_success self s _ _ (separate_returns_some self s true hok)).2
    have hrt := (separate_scan_round_trip self s).1 (by rw [hs])
    rw [hs] at hrt
    exact hrt
  · cases hs : separate_option_from_value self s with
    | none =>
      unfold tokenized
      rw [hs]
      exact ⟨by simp, by simp⟩
    | some r =>
      have ho := separate_outputs self s r hs
      unfold tokenized
      rw [hs]
      exact ho

theorem separate_round_trip_witness :
    "foo=bar" = (tokenized FalconArgParser.default "foo=bar").1
      ++ String.singleton FalconArgParser.default.m_delimiter
      ++ (tokenized FalconArgParser.default "foo=bar").2 :=
  ((separate_round_trip FalconArgParser.default "foo=bar").1 (by decide)).1 (by decide)

/-- With the delimiter `'h'` no option that the tokenizer returns is a help option. -/
theorem separate_never_help (self : FalconArgParser) (hd : self.m_delimiter = 'h')
    (x : String) (r : Bool × String × String)
    (hr : separate_option_from_value self x = some r) :
    ¬ (r.2.1 = "h" ∨ r.2.1 = "--help") := by
  have h := (separate_outputs self x r hr).1
  rw [hd] at h
  intro hh
  rcases hh with e | e
  · rw [e] at h
    exact h (by decide)
  · rw [e] at h
    exact h (by decide)

/-- With the delimiter `'h'` the loop of `parse` never ends with `exit(0)`. -/
theorem parse_loop_never_help {σ : Type} (self : FalconArgParser)
    (hd : self.m_delimiter = 'h') (E : Extension σ)
    (xs : List String) (s : σ) (out : String) (calls : List (String × String)) :
    (parse_loop self E xs s out calls).outcome ≠ Termination.exited 0 := by
  induction xs generalizing s calls with
  | nil =>
    intro h
    simp [parse_loop] at h
  | cons x rest ih =>
    unfold parse_loop
    cases hs : separate_option_from_value self x with
    | none =>
      intro h
      simp at h
    | some r =>
      have hn := separate_never_help self hd x r hs
      simp only [hn, if_false]
      split
      · split
        · intro h
          simp at h
        · exact ih _ _
      · intro h
        simp at h

/-- C20: for a parser constructed with the delimiter `'h'`, whatever its program name has
become, `parse` never ends with status 0, for every argument vector and every extension;
`["prog", "h"]` is rejected by the tokenizer, and `["prog", "--help"]` is handed to the
hook as the option `"--"` with the value `"elp"`. -/
theorem help_unreachable_with_delimiter_h {σ : Type} (E : Extension σ) (s : σ)
    (name : String) (pArgv : Option (List String)) :
    (parse { m_delimiter := 'h', m_program_name := name } E s pArgv).outcome
      ≠ Termination.exited 0 ∧
    (FalconArgParser.custom 'h').m_delimiter = 'h' ∧
    parse (FalconArgParser.custom 'h') E s (some ["prog", "h"])
      = { self := { m_delimiter := 'h', m_program_name := "prog" }
          ext := s
          out := "ERROR: Invalid argument string: h\n"
            ++ print_usage { m_delimiter := 'h', m_program_name := "prog" }
                (E.get_derived_class_usage s)
          calls := []
          outcome := Termination.exited (-1) } ∧
    (parse (FalconArgParser.custom 'h') E s (some ["prog", "--help"])).calls
      = [("--", "elp")] := by
  refine ⟨?_, rfl, ?_, ?_⟩
  · match pArgv with
    | none =>
      intro h
      simp [parse] at h
    | some [] =>
      intro h
      simp [parse] at h
    | some (p :: xs) => exact parse_loop_never_help _ rfl E xs s "" []
  · have h := parse_handled_then (FalconArgParser.custom 'h') E s s "prog" [] ["h"] rfl
    rw [List.nil_append] at h
    rw [h, parse_loop_invalid _ E "h" [] s "" _ (by decide), String.empty_append]
    rfl
  · have tok : separate_option_from_value
        { FalconArgParser.custom 'h' with m_program_name := "prog" } "--help"
        = some (true, "--", "elp") := by decide
    have nh : ¬ (("--" : String) = "h" ∨ ("--" : String) = "--help") := by decide
    cases hE : (E.derived_class_parse s "--" "elp").1 <;>
      simp [parse, parse_loop, tok, nh, hE]

end Falcon
